import Mathlib

/-!
Shallow embedding of the pglz compressor of `src/perftest/pglz.c` and the
decompressor `pglz_decompress_hacked` of `src/pg_lzcompress_hacked.c`.

Byte strings are `List Nat`; the predicate `IsBytes` states every element is
below 256.  Machine-integer truncations of the C code appear as explicit
`% 256` / `&&& 0xff` operations.  The C loops are modelled as fuelled
structural recursions so that every definition evaluates by `decide`/`rfl`;
each fuel argument is instantiated at a bound that the corresponding C loop
cannot exceed, and running out of fuel is either observationally a loop exit
(`findLoop`, `ext32`, `byteExt`) or a distinguished result (`DR.fuelEnd`,
modelling non-termination of the decompressor's copy loop).
-/

namespace Pglz

/-- A byte string: every element is a valid byte value. -/
def IsBytes (s : List Nat) : Prop := ∀ b ∈ s, b < 256

/-- Strategy record, from `PGLZ_Strategy` in `src/perftest/pglz.c`.
Fields are C `int32`, hence `Int`. -/
structure PGLZ_Strategy where
  min_input_size : Int
  max_input_size : Int
  min_comp_rate : Int
  first_success_by : Int
  match_size_good : Int
  match_size_drop : Int

/-- The DEFAULT strategy preset `strategy_default_data`. -/
def strategy_default_data : PGLZ_Strategy :=
  ⟨32, 2147483647, 25, 1024, 128, 10⟩

/-- The ALWAYS strategy preset `strategy_always_data`. -/
def strategy_always_data : PGLZ_Strategy :=
  ⟨0, 2147483647, 0, 2147483647, 128, 6⟩

/-- One history entry (`PGLZ_HistEntry`): chain link, owning bucket, input position. -/
structure PGLZ_HistEntry where
  next_id : Nat
  hist_idx : Nat
  pos : Nat
deriving DecidableEq

/-- The history state: `hist_start` bucket heads and `hist_entries`. -/
structure Hist where
  start : Nat → Nat
  entries : Nat → PGLZ_HistEntry

/-- Initial history: zeroed `hist_start`, sentinel entry 0 with
`pos = src_end` (position `srcLen`), all other entries zero-initialised. -/
def initHist (srcLen : Nat) : Hist :=
  ⟨fun _ => 0, fun id => if id = 0 then ⟨0, 0, srcLen⟩ else ⟨0, 0, 0⟩⟩

/-- `pglz_hist_idx`: fingerprint of the 4 bytes at position `p`. -/
def pglz_hist_idx (s : List Nat) (p mask : Nat) : Nat :=
  ((s.getD p 0 <<< 6) ^^^ (s.getD (p+1) 0 <<< 4) ^^^ (s.getD (p+2) 0 <<< 2) ^^^
    s.getD (p+3) 0) &&& mask

/-- The incremental fingerprint update performed inside `pglz_hist_add`:
`((hist_idx ^ (s[0] << 6)) << 2) ^ s[4]) & mask`. -/
def pglz_hist_next_idx (hidx : Nat) (s : List Nat) (p mask : Nat) : Nat :=
  (((hidx ^^^ (s.getD p 0 <<< 6)) <<< 2) ^^^ s.getD (p+4) 0) &&& mask

/-- `pglz_hist_add`: link a new entry for position `p` into bucket `hidx`,
advance the fingerprint incrementally, advance `hist_next` with wraparound
at `PGLZ_HISTORY_SIZE + 1 = 4095`.  Returns (new hist_next, new hist_idx,
new history). -/
def pglz_hist_add (histNext hidx : Nat) (h : Hist) (s : List Nat) (p mask : Nat) :
    Nat × Nat × Hist :=
  let entry : PGLZ_HistEntry := ⟨h.start hidx, hidx, p⟩
  let h' : Hist := ⟨fun i => if i = hidx then histNext else h.start i,
                    fun i => if i = histNext then entry else h.entries i⟩
  let hidx' := pglz_hist_next_idx hidx s p mask
  let hn := histNext + 1
  (if hn = 4095 then 1 else hn, hidx', h')

/-- The compressor's `while (match_len--)` loop: insert `count` consecutive
positions starting at `p` into the history. -/
def histAddMany (s : List Nat) (mask : Nat) :
    Nat → Nat → Nat → Nat → Hist → Nat × Nat × Hist
  | 0, _, histNext, hidx, h => (histNext, hidx, h)
  | count+1, p, histNext, hidx, h =>
    let r := pglz_hist_add histNext hidx h s p mask
    histAddMany s mask count (p+1) r.1 r.2.1 r.2.2

/-- `pglz_out_tag`: emit a 3-byte tag when `match_len > 17`, else a 2-byte tag.
The `% 256` reflects the C casts to `unsigned char`. -/
def pglz_out_tag (match_len match_offset : Nat) : List Nat :=
  if 17 < match_len then
    [((((match_offset &&& 0xf00) >>> 4) ||| 0x0f)) % 256,
     (match_offset &&& 0xff) % 256,
     (match_len - 18) % 256]
  else
    [((((match_offset &&& 0xf00) >>> 4) ||| (match_len - 3))) % 256,
     (match_offset &&& 0xff) % 256]

/-- Tag decoding, from `pglz_decompress_hacked` (src/pg_lzcompress_hacked.c
lines 45-49): `len = (T1 & 0x0f) + 3`, `off = ((T1 & 0xf0) << 4) | T2`,
and when `len` decodes to 18 the third byte extends the length. -/
def pglz_decode_tag (t1 t2 t3 : Nat) : Nat × Nat :=
  let len := (t1 &&& 0x0f) + 3
  let off := ((t1 &&& 0xf0) <<< 4) ||| t2
  (if len = 18 then len + t3 else len, off)

/-- `pglz_read32`: the little-endian 32-bit word formed by 4 consecutive
bytes (the `memcpy` into a `uint32`); two such words are equal exactly when
the byte quadruples are equal. -/
def pglz_read32 (s : List Nat) (i : Nat) : Nat :=
  s.getD i 0 + s.getD (i+1) 0 * 256 + s.getD (i+2) 0 * 65536 +
    s.getD (i+3) 0 * 16777216

/-- Byte-wise equality of `k` bytes at positions `i` and `j` (the `memcmp`
fast path of `pglz_find_match`). -/
def bytesEq (s : List Nat) : Nat → Nat → Nat → Bool
  | _, _, 0 => true
  | i, j, k+1 => (s.getD i 0 == s.getD j 0) && bytesEq s (i+1) (j+1) k

/-- The word-at-a-time extension loop of `pglz_find_match`:
`while (cur_len <= len_bound - 4 && read32(ip) == read32(hp)) cur_len += 4`.
Fuel-bounded; it is run with fuel `lenBound + 1`, which the loop cannot
exhaust since `curLen` grows by 4 while staying at most `lenBound`. -/
def ext32 (s : List Nat) (ip hp lenBound : Nat) : Nat → Nat → Nat
  | 0, curLen => curLen
  | fuel+1, curLen =>
    if curLen + 4 ≤ lenBound ∧ pglz_read32 s (ip + curLen) = pglz_read32 s (hp + curLen) then
      ext32 s ip hp lenBound fuel (curLen + 4)
    else curLen

/-- The byte-at-a-time refinement loop of `pglz_find_match`:
`while (cur_len < len_bound && *ip == *hp) cur_len++`. -/
def byteExt (s : List Nat) (ip hp lenBound : Nat) : Nat → Nat → Nat
  | 0, curLen => curLen
  | fuel+1, curLen =>
    if curLen < lenBound ∧ s.getD (ip + curLen) 0 = s.getD (hp + curLen) 0 then
      byteExt s ip hp lenBound fuel (curLen + 1)
    else curLen

/-- One candidate evaluation of `pglz_find_match`'s chain walk: the
`len >= 16` branch uses `memcmp` over the current best length and then
extends (updating the offset as soon as the prefixes agree), the other
branch measures the candidate from scratch and replaces the best only when
strictly longer. -/
def matchStep (s : List Nat) (ip hp lenBound : Nat) (best : Nat × Nat) : Nat × Nat :=
  let len := best.1
  let cur_offset := ip - hp
  if 16 ≤ len then
    if bytesEq s ip hp len then
      let l1 := ext32 s ip hp lenBound (lenBound + 1) len
      let l2 := byteExt s ip hp lenBound (lenBound + 1) l1
      (l2, cur_offset)
    else best
  else
    if pglz_read32 s ip = pglz_read32 s hp then
      let c1 := ext32 s ip hp lenBound (lenBound + 1) 4
      let c2 := byteExt s ip hp lenBound (lenBound + 1) c1
      if len < c2 then (c2, cur_offset) else best
    else best

/-- The chain walk of `pglz_find_match`.  Continues only while the next
entry's position is strictly older and its bucket tag matches, decaying
`good_match` by `(good_match * good_drop) >> 7` per step.  Fuel-bounded;
the walk is started with fuel `pos + 1` of the head entry, which suffices
because positions strictly decrease along the walk. -/
def findLoop (h : Hist) (s : List Nat) (hidx ip lenBound goodDrop : Nat) :
    Nat → Nat → Nat → Nat × Nat → Nat × Nat
  | 0, _, _, best => best
  | fuel+1, entryId, goodMatch, best =>
    let e := h.entries entryId
    let best' := matchStep s ip e.pos lenBound best
    let ne := h.entries e.next_id
    if goodMatch ≤ best'.1 ∨ e.pos ≤ ne.pos ∨ ne.hist_idx ≠ hidx then best'
    else findLoop h s hidx ip lenBound goodDrop fuel e.next_id
      (goodMatch - ((goodMatch * goodDrop) >>> 7)) best'

/-- `pglz_find_match`: look up bucket `hidx`, reject an empty or stale head
(clearing the bucket head in the stale case, as the C code does), walk the
chain, clamp the best length to `len_bound` and report a match only when it
saves at least one byte (`len > 2`).  Returns the (possibly updated)
history and the match, if any. -/
def pglz_find_match (h : Hist) (s : List Nat) (hidx ip srcend goodMatch goodDrop : Nat) :
    Hist × Option (Nat × Nat) :=
  let lenBound := min (srcend - ip) 273
  let headId := h.start hidx
  if headId = 0 then (h, none)
  else if (h.entries headId).hist_idx ≠ hidx then
    (⟨fun i => if i = hidx then 0 else h.start i, h.entries⟩, none)
  else
    let r := findLoop h s hidx ip lenBound goodDrop ((h.entries headId).pos + 1)
      headId goodMatch (0, 0)
    let len := min r.1 lenBound
    if 2 < len then (h, some (len, r.2)) else (h, none)

/-- Per-invocation parameters of the compressor driver. -/
structure CParams where
  s : List Nat
  csend : Nat
  result_max : Nat
  first_success_by : Int
  good_match : Nat
  good_drop : Nat
  mask : Nat

/-- Patch the pending control byte into its reserved slot
(`*control_ptr = control_byte`); writes to the initial dummy are dropped. -/
def patchCtrl (out : List Nat) (ctrlIdx : Option Nat) (ctrlByte : Nat) : List Nat :=
  match ctrlIdx with
  | none => out
  | some i => out.set i ctrlByte

/-- The compressor's control-byte refresh: when the 8 slots are used up
(`control_pos & 0xff == 0`), patch the previous control byte and reserve a
fresh zero slot at the end of the output. -/
def refreshCtrl (out : List Nat) (ctrlIdx : Option Nat) (ctrlByte ctrlPos : Nat) :
    List Nat × Option Nat × Nat × Nat :=
  if ctrlPos &&& 0xff = 0 then
    ((patchCtrl out ctrlIdx ctrlByte) ++ [0], some (patchCtrl out ctrlIdx ctrlByte).length,
      0, 1)
  else (out, ctrlIdx, ctrlByte, ctrlPos)

/-- The literal-only tail loop of `pglz_compress` (`while (src_ptr < src_end)`),
over the remaining source suffix.  On exhaustion, the final control byte is
patched and the `result_size >= result_max` check decides success. -/
def tailLoop (P : CParams) : List Nat → List Nat → Option Nat → Nat → Nat → Bool →
    Option (List Nat)
  | [], out, ctrlIdx, ctrlByte, _ctrlPos, _found =>
    let res := patchCtrl out ctrlIdx ctrlByte
    if P.result_max ≤ res.length then none else some res
  | b :: rest, out, ctrlIdx, ctrlByte, ctrlPos, found =>
    if P.result_max ≤ out.length then none
    else if found = false ∧ P.first_success_by ≤ (out.length : Int) then none
    else
      let q := refreshCtrl out ctrlIdx ctrlByte ctrlPos
      tailLoop P rest (q.1 ++ [b % 256]) q.2.1 q.2.2.1 ((q.2.2.2 <<< 1) &&& 0xff) found

/-- The main loop of `pglz_compress` (`while (src_ptr < compress_src_end)`),
fuel-bounded; the driver runs it with fuel `src_len + 1`, which suffices
because the cursor advances by at least one position per iteration. -/
def compressMainLoop (P : CParams) : Nat → Nat → List Nat → Option Nat → Nat → Nat →
    Nat → Nat → Hist → Bool → Option (List Nat)
  | 0, _, _, _, _, _, _, _, _, _ => none
  | fuel+1, p, out, ctrlIdx, ctrlByte, ctrlPos, histNext, hidx, h, found =>
    if p < P.csend then
      if P.result_max ≤ out.length then none
      else if found = false ∧ P.first_success_by ≤ (out.length : Int) then none
      else
        let q := refreshCtrl out ctrlIdx ctrlByte ctrlPos
        match pglz_find_match h P.s hidx p P.csend P.good_match P.good_drop with
        | (h1, some lo) =>
          let r := histAddMany P.s P.mask lo.1 p histNext hidx h1
          compressMainLoop P fuel (p + lo.1) (q.1 ++ pglz_out_tag lo.1 lo.2)
            q.2.1 (q.2.2.1 ||| q.2.2.2) ((q.2.2.2 <<< 1) &&& 0xff) r.1 r.2.1 r.2.2 true
        | (h1, none) =>
          let r := pglz_hist_add histNext hidx h1 P.s p P.mask
          compressMainLoop P fuel (p + 1) (q.1 ++ [P.s.getD p 0 % 256])
            q.2.1 q.2.2.1 ((q.2.2.2 <<< 1) &&& 0xff) r.1 r.2.1 r.2.2 found
    else
      tailLoop P (P.s.drop p) out ctrlIdx ctrlByte ctrlPos found

/-- `pglz_compress`: strategy early-reject, parameter clamping, `result_max`
computation, hash sizing, history initialisation, then the two loops.
`none` models the C return value `-1`; `some c` models success with the
`result_size` bytes `c` written to `dest`. -/
def pglz_compress (source : List Nat) (strategy : PGLZ_Strategy) : Option (List Nat) :=
  let src_len := source.length
  if strategy.match_size_good ≤ 0 ∨ (src_len : Int) < strategy.min_input_size ∨
      (src_len : Int) > strategy.max_input_size then none
  else
    let gm0 := strategy.match_size_good.toNat
    let good_match := if 273 < gm0 then 273 else if gm0 < 17 then 17 else gm0
    let gd0 := (max strategy.match_size_drop 0).toNat
    let gd1 := if 100 < gd0 then 100 else gd0
    let good_drop := gd1 * 128 / 100
    let nr0 := (max strategy.min_comp_rate 0).toNat
    let need_rate := if 99 < nr0 then 99 else nr0
    let result_max := if 21474836 < src_len then (src_len / 100) * (100 - need_rate)
      else (src_len * (100 - need_rate)) / 100
    let hash_size := if src_len < 128 then 512 else if src_len < 256 then 1024
      else if src_len < 512 then 2048 else if src_len < 1024 then 4096 else 8192
    let mask := hash_size - 1
    let P : CParams := ⟨source, src_len - 4, result_max, strategy.first_success_by,
      good_match, good_drop, mask⟩
    compressMainLoop P (src_len + 1) 0 [] none 0 0 1 (pglz_hist_idx source 0 mask)
      (initHist src_len) false

/-- Result of a (fuelled) decompressor run: a normal value, an out-of-bounds
read from the destination buffer, or fuel exhaustion (modelling
non-termination). -/
inductive DR (α : Type) where
  | ok : α → DR α
  | oobRead : DR α
  | fuelEnd : DR α
deriving DecidableEq

/-- `memcpy(dp, dp - off, k)` on the output buffer: append the `k` bytes
starting `off` positions before the write cursor. -/
def copyFrom (out : List Nat) (off k : Nat) : List Nat :=
  out ++ (out.drop (out.length - off)).take k

/-- The decompressor's doubling overlap-copy:
`while (off <= len) { memcpy(dp, dp-off, off); len -= off; dp += off; off *= 2 }
memcpy(dp, dp-off, len)`.  A `memcpy` whose source starts before the output
buffer is an out-of-bounds read; `off = 0` never terminates (fuel runs out). -/
def copyLoop : Nat → List Nat → Nat → Nat → DR (List Nat)
  | 0, _, _, _ => .fuelEnd
  | fuel+1, out, off, len =>
    if off ≤ len then
      if out.length < off then .oobRead
      else copyLoop fuel (copyFrom out off off) (off * 2) (len - off)
    else
      if 0 < len ∧ out.length < off then .oobRead
      else .ok (copyFrom out off len)

/-- The decompressor state machine of `pglz_decompress_hacked`.  `k = 0`
is the outer-loop state (read a control byte, or stop when input or output
is exhausted); `k > 0` processes one of the remaining items of the current
group.  Fuel decreases at every step. -/
def decompGo : Nat → List Nat → Nat → Nat → List Nat → Nat → Nat → Nat →
    DR (List Nat × Nat)
  | 0, _, _, _, _, _, _, _ => .fuelEnd
  | fuel+1, src, slen, sp, out, rawsize, ctrl, k =>
    if k = 0 then
      if sp < slen ∧ out.length < rawsize then
        decompGo fuel src slen (sp + 1) out rawsize (src.getD sp 0) 8
      else .ok (out, sp)
    else
      if sp < slen ∧ out.length < rawsize then
        if ctrl &&& 1 = 1 then
          let t1 := src.getD sp 0
          let len0 := (t1 &&& 0x0f) + 3
          let off := ((t1 &&& 0xf0) <<< 4) ||| src.getD (sp + 1) 0
          let lenA := if len0 = 18 then len0 + src.getD (sp + 2) 0 else len0
          let sp1 := if len0 = 18 then sp + 3 else sp + 2
          let len := min lenA (rawsize - out.length)
          match copyLoop (len + 1) out off len with
          | .ok out1 => decompGo fuel src slen sp1 out1 rawsize (ctrl >>> 1) (k - 1)
          | .oobRead => .oobRead
          | .fuelEnd => .fuelEnd
        else
          decompGo fuel src slen (sp + 1) (out ++ [src.getD sp 0]) rawsize (ctrl >>> 1) (k - 1)
      else
        decompGo fuel src slen sp out rawsize ctrl 0

/-- `pglz_decompress_hacked`: run the state machine on `slen` input bytes
with a `rawsize`-byte destination; on normal completion apply the
`check_complete` validation and return the C result (`-1` or the byte count)
together with the bytes written. -/
def pglz_decompress_hacked (source : List Nat) (slen rawsize : Nat)
    (check_complete : Bool) : DR (Int × List Nat) :=
  match decompGo (2 * slen + 2) source slen 0 [] rawsize 0 0 with
  | .ok (out, sp) =>
    if check_complete ∧ (out.length ≠ rawsize ∨ sp ≠ slen) then .ok (-1, out)
    else .ok ((out.length : Int), out)
  | .oobRead => .oobRead
  | .fuelEnd => .fuelEnd

/-- The input position held by history-entry `id` after the positions
`0, …, p-1` have been inserted (FIFO recycling with 4094 slots): the largest
`q < p` with `q ≡ id - 1 [MOD 4094]`. -/
def posOf (p id : Nat) : Nat := p - 1 - ((p - id) % 4094)

/-- Exact invariant of the history state after inserting positions
`0, …, p-1`: `hist_next` cycles with the insertion count, every written
entry (`id ≤ p`) holds the position `posOf p id` and links at most
4094-and-older ids, unwritten entries are still zero-initialised, the
sentinel position is not older than the cursor, and bucket heads point to
written entries.  Quantifiers are bounded so the invariant is decidable. -/
def HistInvW (h : Hist) (histNext p : Nat) : Prop :=
  histNext = p % 4094 + 1 ∧
  p ≤ (h.entries 0).pos ∧
  (∀ id < 4095, 1 ≤ id → id ≤ p →
    (h.entries id).pos = posOf p id ∧ (h.entries id).next_id ≤ 4094 ∧
      (h.entries id).next_id ≤ p) ∧
  (∀ id < 4096, 1 ≤ id → p < id → h.entries id = ⟨0, 0, 0⟩) ∧
  (∀ i < 8192, h.start i = 0 ∨
    (1 ≤ h.start i ∧ h.start i ≤ 4094 ∧ h.start i ≤ p))


/-- Candidate tracking invariant for the chain walk of
`pglz_find_match` (claim C1): the best candidate is either still empty or a
real self-referential match into already-seen input. -/
def WalkBest (s : List Nat) (ip lenBound : Nat) (best : Nat × Nat) : Prop :=
  best = (0, 0) ∨
    (1 ≤ best.2 ∧ best.2 ≤ ip ∧ 4 ≤ best.1 ∧ best.1 ≤ max lenBound 4 ∧
      ∀ k < best.1, s.getD (ip - best.2 + k) 0 = s.getD (ip + k) 0)

/-- One item of the compressed stream: a literal byte or a match tag. -/
inductive CItem where
  | lit : Nat → CItem
  | mtch : Nat → Nat → CItem
deriving DecidableEq

/-- Number of output bytes an item reconstructs. -/
def itemLen : CItem → Nat
  | .lit _ => 1
  | .mtch l _ => l

/-- The item's control bit (1 for a tag). -/
def itemBit : CItem → Nat
  | .lit _ => 0
  | .mtch _ _ => 1

/-- The stream bytes of one item. -/
def encItem : CItem → List Nat
  | .lit b => [b]
  | .mtch l o => pglz_out_tag l o

/-- The control byte of a group of items, lsb first. -/
def ctrlOf : List CItem → Nat
  | [] => 0
  | it :: rest => itemBit it + 2 * ctrlOf rest

def encItems : List CItem → List Nat
  | [] => []
  | it :: rest => encItem it ++ encItems rest

def itemsLen : List CItem → Nat
  | [] => 0
  | it :: rest => itemLen it + itemsLen rest

/-- A full group: its control byte followed by the item bytes. -/
def encGroup (g : List CItem) : List Nat := ctrlOf g :: encItems g

def encGroups : List (List CItem) → List Nat
  | [] => []
  | g :: gs => encGroup g ++ encGroups gs

def groupsLen : List (List CItem) → Nat
  | [] => 0
  | g :: gs => itemsLen g + groupsLen gs

/-- Semantic correctness of one item against the source at output cursor `n`:
a literal carries the source byte, a match points back into already-produced
output, stays inside the tag ranges, and its bytes repeat the source. -/
def ItemOk (s : List Nat) (n : Nat) : CItem → Prop
  | .lit b => b = s.getD n 0 ∧ n < s.length
  | .mtch l o => 1 ≤ o ∧ o ≤ n ∧ o ≤ 4095 ∧ 3 ≤ l ∧ l ≤ 273 ∧ n + l ≤ s.length ∧
      ∀ k < l, s.getD (n - o + k) 0 = s.getD (n + k) 0

def ItemsOk (s : List Nat) : Nat → List CItem → Prop
  | _, [] => True
  | n, it :: rest => ItemOk s n it ∧ ItemsOk s (n + itemLen it) rest

def GroupsOk (s : List Nat) : Nat → List (List CItem) → Prop
  | _, [] => True
  | n, g :: gs => ItemsOk s n g ∧ GroupsOk s (n + itemsLen g) gs

/-- Shape constraint making a group list decodable: every group before the
last holds exactly 8 items, the last between 1 and 8. -/
def GoodGroups : List (List CItem) → Prop
  | [] => False
  | [g] => 1 ≤ g.length ∧ g.length ≤ 8
  | g :: gs => g.length = 8 ∧ GoodGroups gs

end Pglz

namespace Pglz

/-! ### Generic arithmetic and bit-level helper lemmas -/

theorem two_pow_ge_of_le (k i c : Nat) (hc : c = 2 ^ k) (hi : k ≤ i) :
    c ≤ 2 ^ i := hc ▸ Nat.pow_le_pow_right (by norm_num) hi

/-- Extracting the low nibble after `or`-ing a nibble into the shifted
high-offset bits recovers the nibble. -/
theorem tag_low_nibble (x k : Nat) (hk : k < 16) :
    (((x &&& 0xf00) >>> 4) ||| k) &&& 0x0f = k := by
  apply Nat.eq_of_testBit_eq
  intro i
  rw [show (0x0f : Nat) = 2 ^ 4 - 1 by decide, show (0xf00 : Nat) = (2 ^ 4 - 1) <<< 8 by decide]
  simp only [Nat.testBit_land, Nat.testBit_lor, Nat.testBit_shiftRight,
    Nat.testBit_shiftLeft, Nat.testBit_two_pow_sub_one]
  rcases Nat.lt_or_ge i 4 with hi | hi
  · have h2 : decide (8 ≤ 4 + i) = false := by simp; omega
    have h3 : decide (i < 4) = true := by simp [hi]
    simp [h2, h3]
  · have h1 : decide (i < 4) = false := by simp; omega
    have hkb : k.testBit i = false :=
      Nat.testBit_lt_two_pow (lt_of_lt_of_le hk (two_pow_ge_of_le 4 i 16 (by norm_num) hi))
    simp [h1, hkb]

/-- Masking the high nibble and shifting back reconstructs `x & 0xf00`. -/
theorem tag_high_nibble (x k : Nat) (hk : k < 16) :
    ((((x &&& 0xf00) >>> 4) ||| k) &&& 0xf0) <<< 4 = x &&& 0xf00 := by
  apply Nat.eq_of_testBit_eq
  intro i
  rw [show (0xf0 : Nat) = (2 ^ 4 - 1) <<< 4 by decide,
    show (0xf00 : Nat) = (2 ^ 4 - 1) <<< 8 by decide]
  simp only [Nat.testBit_land, Nat.testBit_lor, Nat.testBit_shiftRight,
    Nat.testBit_shiftLeft, Nat.testBit_two_pow_sub_one]
  rcases Nat.lt_or_ge i 4 with hi4 | hi4
  · have h1 : decide (4 ≤ i) = false := by simp; omega
    have h2 : decide (8 ≤ i) = false := by simp; omega
    simp [h1, h2]
  · have e1 : 4 + (i - 4) = i := by omega
    rcases Nat.lt_or_ge i 8 with hi8 | hi8
    · have h1 : decide (4 ≤ i) = true := by simp [hi4]
      have h2 : decide (4 ≤ i - 4) = false := by simp; omega
      have h3 : decide (8 ≤ i) = false := by simp; omega
      simp [h1, h2, h3, e1]
    · rcases Nat.lt_or_ge i 12 with hi12 | hi12
      · have h1 : decide (4 ≤ i) = true := by simp [hi4]
        have h2 : decide (4 ≤ i - 4) = true := by simp; omega
        have h3 : decide (8 ≤ i) = true := by simp [hi8]
        have h4 : decide (i - 4 - 4 < 4) = true := by simp; omega
        have h5 : decide (i - 8 < 4) = true := by simp; omega
        have h6 : decide (8 ≤ 4 + (i - 4)) = true := by simp; omega
        have h7 : 4 + (i - 4) - 8 = i - 8 := by omega
        have hkb : k.testBit (i - 4) = false :=
          Nat.testBit_lt_two_pow
            (lt_of_lt_of_le hk (two_pow_ge_of_le 4 (i - 4) 16 (by norm_num) (by omega)))
        simp [h1, h2, h3, h4, h5, h6, h7, e1, hkb]
      · have h4 : decide (i - 4 - 4 < 4) = false := by simp; omega
        have h5 : decide (i - 8 < 4) = false := by simp; omega
        have h1 : decide (4 ≤ i) = true := by simp [hi4]
        have h3 : decide (8 ≤ i) = true := by simp [hi8]
        simp [h1, h3, h4, h5]

/-- A 12-bit value is the disjunction of its high and low parts. -/
theorem tag_recombine (x : Nat) (hx : x < 4096) :
    (x &&& 0xf00) ||| (x &&& 0xff) = x := by
  apply Nat.eq_of_testBit_eq
  intro i
  rw [show (0xff : Nat) = 2 ^ 8 - 1 by decide, show (0xf00 : Nat) = (2 ^ 4 - 1) <<< 8 by decide]
  simp only [Nat.testBit_land, Nat.testBit_lor, Nat.testBit_shiftLeft,
    Nat.testBit_two_pow_sub_one]
  rcases Nat.lt_or_ge i 8 with hi | hi
  · have h1 : decide (8 ≤ i) = false := by simp; omega
    have h2 : decide (i < 8) = true := by simp [hi]
    simp [h1, h2]
  · rcases Nat.lt_or_ge i 12 with hi12 | hi12
    · have h1 : decide (8 ≤ i) = true := by simp [hi]
      have h2 : decide (i - 8 < 4) = true := by simp; omega
      have h3 : decide (i < 8) = false := by simp; omega
      simp [h1, h2, h3]
    · have hxb : x.testBit i = false :=
        Nat.testBit_lt_two_pow (lt_of_lt_of_le hx (two_pow_ge_of_le 12 i 4096 (by norm_num) hi12))
      have h2 : decide (i - 8 < 4) = false := by simp; omega
      have h3 : decide (i < 8) = false := by simp; omega
      simp [hxb, h2, h3]

/-- The shifted-offset byte is below 240 + 16. -/
theorem tag_t1_lt (x k : Nat) (hk : k < 16) :
    (((x &&& 0xf00) >>> 4) ||| k) < 256 := by
  have h1 : (x &&& 0xf00) >>> 4 < 256 := by
    rw [Nat.shiftRight_eq_div_pow]
    have : x &&& 0xf00 ≤ 0xf00 := Nat.and_le_right
    calc (x &&& 0xf00) / 2 ^ 4 ≤ 0xf00 / 2 ^ 4 := Nat.div_le_div_right this
      _ < 256 := by norm_num
  exact Nat.or_lt_two_pow (n := 8) h1 (by omega)

/-- Incremental fingerprint update identity on raw bit operations. -/
theorem hash_step_bits (a b c d e m : Nat) :
    ((((((a <<< 6) ^^^ (b <<< 4) ^^^ (c <<< 2) ^^^ d) &&& (2 ^ m - 1)) ^^^ (a <<< 6)) <<< 2)
        ^^^ e) &&& (2 ^ m - 1)
    = ((b <<< 6) ^^^ (c <<< 4) ^^^ (d <<< 2) ^^^ e) &&& (2 ^ m - 1) := by
  apply Nat.eq_of_testBit_eq
  intro i
  simp only [Nat.testBit_land, Nat.testBit_xor, Nat.testBit_shiftLeft,
    Nat.testBit_two_pow_sub_one]
  rcases Nat.lt_or_ge i m with him | him
  · have hm : decide (i < m) = true := by simp [him]
    rcases Nat.lt_or_ge i 2 with hi2 | hi2
    · have h1 : decide (i ≥ 2) = false := by simp; omega
      have h4 : decide (i ≥ 4) = false := by simp; omega
      have h6 : decide (i ≥ 6) = false := by simp; omega
      simp [h1, h4, h6, hm]
    · have h2 : decide (i ≥ 2) = true := by simp [hi2]
      have him2 : decide (i - 2 < m) = true := by simp; omega
      have e6 : decide (i ≥ 6) = decide (i - 2 ≥ 4) := by
        rcases Nat.lt_or_ge i 6 with h | h <;> simp_all <;> omega
      have e4 : decide (i ≥ 4) = decide (i - 2 ≥ 2) := by
        rcases Nat.lt_or_ge i 4 with h | h <;> simp_all <;> omega
      have i62 : i - 2 - 4 = i - 6 := by omega
      have i42 : i - 2 - 2 = i - 4 := by omega
      simp only [h2, hm, him2, Bool.true_and, Bool.and_true, e6, e4, i62, i42]
      cases decide (i - 2 ≥ 6) <;> cases a.testBit (i - 2 - 6) <;>
        cases b.testBit (i - 6) <;> cases c.testBit (i - 4) <;> cases d.testBit (i - 2) <;>
        cases e.testBit i <;> cases decide (i - 2 ≥ 4) <;> cases decide (i - 2 ≥ 2) <;> rfl
  · have hm : decide (i < m) = false := by simp; omega
    simp [hm]

/-! ### Step lemmas for the match-extension loops -/

theorem ext32_le (s : List Nat) (ip hp lenBound : Nat) :
    ∀ fuel curLen, curLen ≤ ext32 s ip hp lenBound fuel curLen := by
  intro fuel
  induction fuel with
  | zero => intro curLen; simp [ext32]
  | succ n ih =>
    intro curLen
    rw [ext32]
    split
    · exact le_trans (by omega) (ih (curLen + 4))
    · exact le_refl _

theorem byteExt_le (s : List Nat) (ip hp lenBound : Nat) :
    ∀ fuel curLen, curLen ≤ byteExt s ip hp lenBound fuel curLen := by
  intro fuel
  induction fuel with
  | zero => intro curLen; simp [byteExt]
  | succ n ih =>
    intro curLen
    rw [byteExt]
    split
    · exact le_trans (by omega) (ih (curLen + 1))
    · exact le_refl _

/-! ### Step lemmas for the decompressor state machine -/

theorem decompGo_read_ctrl (fuel : Nat) (src : List Nat) (slen sp : Nat) (out : List Nat)
    (raw ctrl : Nat) (h1 : sp < slen) (h2 : out.length < raw) :
    decompGo (fuel + 1) src slen sp out raw ctrl 0 =
      decompGo fuel src slen (sp + 1) out raw (src.getD sp 0) 8 := by
  simp [decompGo, h1, h2]

theorem decompGo_stop (fuel : Nat) (src : List Nat) (slen sp : Nat) (out : List Nat)
    (raw ctrl : Nat) (h : ¬(sp < slen ∧ out.length < raw)) :
    decompGo (fuel + 1) src slen sp out raw ctrl 0 = .ok (out, sp) := by
  simp [decompGo, h]

theorem decompGo_break (fuel : Nat) (src : List Nat) (slen sp : Nat) (out : List Nat)
    (raw ctrl k : Nat) (hk : k ≠ 0) (h : ¬(sp < slen ∧ out.length < raw)) :
    decompGo (fuel + 1) src slen sp out raw ctrl k =
      decompGo fuel src slen sp out raw ctrl 0 := by
  simp only [decompGo, if_neg hk, if_neg h]

theorem decompGo_lit (fuel : Nat) (src : List Nat) (slen sp : Nat) (out : List Nat)
    (raw ctrl k : Nat) (hk : k ≠ 0) (h1 : sp < slen) (h2 : out.length < raw)
    (hc : ¬(ctrl &&& 1 = 1)) :
    decompGo (fuel + 1) src slen sp out raw ctrl k =
      decompGo fuel src slen (sp + 1) (out ++ [src.getD sp 0]) raw (ctrl >>> 1) (k - 1) := by
  simp only [decompGo, if_neg hk, if_pos (And.intro h1 h2), if_neg hc]

theorem decompGo_tag (fuel : Nat) (src : List Nat) (slen sp : Nat) (out : List Nat)
    (raw ctrl k t1 len0 off lenA sp1 len : Nat)
    (hk : k ≠ 0) (h1 : sp < slen) (h2 : out.length < raw) (hc : ctrl &&& 1 = 1)
    (ht1 : t1 = src.getD sp 0)
    (hlen0 : len0 = (t1 &&& 0x0f) + 3)
    (hoff : off = ((t1 &&& 0xf0) <<< 4) ||| src.getD (sp + 1) 0)
    (hlenA : lenA = if len0 = 18 then len0 + src.getD (sp + 2) 0 else len0)
    (hsp1 : sp1 = if len0 = 18 then sp + 3 else sp + 2)
    (hlen : len = min lenA (raw - out.length)) :
    decompGo (fuel + 1) src slen sp out raw ctrl k =
      match copyLoop (len + 1) out off len with
      | .ok out1 => decompGo fuel src slen sp1 out1 raw (ctrl >>> 1) (k - 1)
      | .oobRead => .oobRead
      | .fuelEnd => .fuelEnd := by
  subst ht1 hlen0 hoff hlenA hsp1 hlen
  simp only [decompGo, if_neg hk, if_pos (And.intro h1 h2), if_pos hc]

/-- A copy with offset 0 makes no progress: the loop spins until fuel runs
out, modelling the non-terminating `while (off <= len)` of the C code. -/
theorem copyLoop_zero_off (fuel : Nat) (out : List Nat) (len : Nat) :
    copyLoop fuel out 0 len = DR.fuelEnd := by
  induction fuel generalizing out len with
  | zero => rfl
  | succ n ih =>
    rw [copyLoop]
    have h0 : (0 : Nat) ≤ len := Nat.zero_le _
    rw [if_pos h0, if_neg (by omega)]
    have : copyFrom out 0 0 = out := by simp [copyFrom]
    rw [this]
    exact ih out (len - 0)

/-! ### Claim C2: tag encode/decode round-trip -/

/-- Claim C2: for every offset in 1..4095 and length in 3..273,
`pglz_out_tag` emits 2 bytes when the length is at most 17 and 3 bytes
otherwise, and the decompressor's decoding formulas recover exactly the
original offset and length. -/
theorem c2_tag_codec (off len : Nat) (h1 : 1 ≤ off) (h2 : off ≤ 4095)
    (h3 : 3 ≤ len) (h4 : len ≤ 273) :
    (pglz_out_tag len off).length = (if len ≤ 17 then 2 else 3) ∧
    pglz_decode_tag ((pglz_out_tag len off).getD 0 0) ((pglz_out_tag len off).getD 1 0)
      ((pglz_out_tag len off).getD 2 0) = (len, off) := by
  have hofflt : off < 4096 := by omega
  have ht2 : off &&& 0xff < 256 := by
    have := Nat.and_le_right (n := off) (m := 0xff); omega
  by_cases hlong : 17 < len
  · have hk : (0x0f : Nat) < 16 := by norm_num
    have ht1 : (((off &&& 0xf00) >>> 4) ||| 0x0f) < 256 := tag_t1_lt off 0x0f hk
    have ht3 : len - 18 < 256 := by omega
    constructor
    · simp only [pglz_out_tag, if_pos hlong, if_neg (show ¬ len ≤ 17 by omega)]
      rfl
    · simp only [pglz_out_tag, if_pos hlong]
      simp only [List.getD_cons_zero, List.getD_cons_succ]
      rw [Nat.mod_eq_of_lt ht1, Nat.mod_eq_of_lt ht2, Nat.mod_eq_of_lt ht3]
      have hlow := tag_low_nibble off 0x0f hk
      have hhigh := tag_high_nibble off 0x0f hk
      simp only [pglz_decode_tag, hlow, hhigh]
      rw [tag_recombine off hofflt]
      refine Prod.ext ?_ ?_ <;> simp <;> omega
  · have hklt : len - 3 < 16 := by omega
    have ht1 : (((off &&& 0xf00) >>> 4) ||| (len - 3)) < 256 := tag_t1_lt off (len - 3) hklt
    constructor
    · simp only [pglz_out_tag, if_neg hlong, if_pos (show len ≤ 17 by omega)]
      rfl
    · simp only [pglz_out_tag, if_neg hlong]
      simp only [List.getD_cons_zero, List.getD_cons_succ, List.getD_nil]
      rw [Nat.mod_eq_of_lt ht1, Nat.mod_eq_of_lt ht2]
      have hlow := tag_low_nibble off (len - 3) hklt
      have hhigh := tag_high_nibble off (len - 3) hklt
      simp only [pglz_decode_tag, hlow, hhigh]
      rw [tag_recombine off hofflt]
      have hne : ¬(len - 3 + 3 = 18) := by omega
      rw [if_neg hne]
      refine Prod.ext ?_ ?_ <;> simp <;> omega

/-- Witness for C2 at offset 4095, length 17. -/
theorem c2_tag_codec_witness :
    (pglz_out_tag 17 4095).length = (if 17 ≤ 17 then 2 else 3) ∧
    pglz_decode_tag ((pglz_out_tag 17 4095).getD 0 0) ((pglz_out_tag 17 4095).getD 1 0)
      ((pglz_out_tag 17 4095).getD 2 0) = (17, 4095) :=
  c2_tag_codec 4095 17 (by decide) (by decide) (by decide) (by decide)

/-! ### Claim C9: incremental hash equivalence -/

/-- Claim C9: for every input and position with at least 5 bytes remaining,
the incremental fingerprint update of `pglz_hist_add` applied to the direct
fingerprint at `p` yields the direct fingerprint `pglz_hist_idx` at `p + 1`,
for every mask `HASH_SIZE - 1` with `HASH_SIZE` in {512, 1024, 2048, 4096,
8192}. -/
theorem c9_hash_equivalence (s : List Nat) (p mask hcur : Nat)
    (hrem : p + 4 < s.length)
    (hm : mask = 511 ∨ mask = 1023 ∨ mask = 2047 ∨ mask = 4095 ∨ mask = 8191)
    (hc : hcur = pglz_hist_idx s p mask) :
    pglz_hist_next_idx hcur s p mask = pglz_hist_idx s (p + 1) mask := by
  subst hc
  have key : ∀ m : Nat, mask = 2 ^ m - 1 →
      pglz_hist_next_idx (pglz_hist_idx s p mask) s p mask = pglz_hist_idx s (p + 1) mask := by
    intro m hmask
    subst hmask
    simp only [pglz_hist_idx, pglz_hist_next_idx]
    have e1 : p + 1 + 1 = p + 2 := by omega
    have e2 : p + 1 + 2 = p + 3 := by omega
    have e3 : p + 1 + 3 = p + 4 := by omega
    rw [e1, e2, e3]
    exact hash_step_bits (s.getD p 0) (s.getD (p+1) 0) (s.getD (p+2) 0)
      (s.getD (p+3) 0) (s.getD (p+4) 0) m
  rcases hm with h | h | h | h | h
  · exact key 9 (by rw [h]; decide)
  · exact key 10 (by rw [h]; decide)
  · exact key 11 (by rw [h]; decide)
  · exact key 12 (by rw [h]; decide)
  · exact key 13 (by rw [h]; decide)

/-- Witness for C9 on a concrete 5-byte input with mask 511. -/
theorem c9_hash_equivalence_witness :
    pglz_hist_next_idx (pglz_hist_idx [1, 2, 3, 4, 5] 0 511) [1, 2, 3, 4, 5] 0 511 =
      pglz_hist_idx [1, 2, 3, 4, 5] 1 511 :=
  c9_hash_equivalence [1, 2, 3, 4, 5] 0 511 _ (by decide) (Or.inl rfl) rfl

/-! ### Claim C4: compressing 200 spaces -/

set_option maxRecDepth 10000 in
/-- Counterexample to claim C4: 200 spaces do not compress to the claimed
5-byte stream `[0x01, 0x20, 0x0F, 0x01, 0xB6]`. -/
theorem c4_counterexample :
    pglz_compress (List.replicate 200 32) strategy_default_data ≠
      some [0x01, 0x20, 0x0f, 0x01, 0xb6] := by decide

set_option maxRecDepth 10000 in
/-- Amended claim C4: 200 spaces under DEFAULT compress to the 9-byte stream
`[0x02, 0x20, 0x0F, 0x01, 0xB1, 0x20, 0x20, 0x20, 0x20]`: a control byte
with the match bit on the second item (bit 1, value 0x02), one literal
space, a long tag with offset 1 and length 195 (the last 4 source bytes are
excluded from matching), and the 4 trailing spaces as literals. -/
theorem c4_run_compression :
    pglz_compress (List.replicate 200 32) strategy_default_data =
      some [0x02, 0x20, 0x0f, 0x01, 0xb1, 0x20, 0x20, 0x20, 0x20] := by decide

/-! ### Claim C5: decompressing the overlap example -/

/-- Counterexample to claim C5: the stream `[0x01, 0x41, 0x00, 0x01]` makes
the decoder treat `0x41` as a tag byte (control bit 0 is set for the first
item), decoding offset 1024 at write position 0: an out-of-bounds read, not
the output `"AAAA"`. -/
theorem c5_counterexample :
    pglz_decompress_hacked [0x01, 0x41, 0x00, 0x01] 4 4 true = DR.oobRead ∧
    pglz_decompress_hacked [0x01, 0x41, 0x00, 0x01] 4 4 true ≠
      DR.ok ((4 : Int), [0x41, 0x41, 0x41, 0x41]) := by
  constructor <;> decide

/-- Amended claim C5: the corrected stream `[0x02, 0x41, 0x00, 0x01]`
(control bit 1 set: literal, then match) decompresses with rawsize 4 to
`"AAAA"`, the short tag with offset 1 and length 3 self-referentially
duplicating the preceding byte. -/
theorem c5_overlap_copy :
    pglz_decompress_hacked [0x02, 0x41, 0x00, 0x01] 4 4 true =
      DR.ok ((4 : Int), [0x41, 0x41, 0x41, 0x41]) := by decide

/-! ### Claim C6: malformed offsets -/

/-- Counterexample to claim C6: the stream `[0x01, 0xF0, 0x00]` decodes a
tag with offset 3840 > 0 bytes written; `pglz_decompress_hacked` neither
reports failure nor refrains from reading out of bounds — it reads before
the start of the destination buffer. -/
theorem c6_counterexample :
    pglz_decompress_hacked [0x01, 0xf0, 0x00] 3 5 true = DR.oobRead := by decide

/-- Amended claim C6: `pglz_decompress_hacked` performs no validation of
decoded offsets.  A first-item tag whose decoded offset exceeds the bytes
written so far (here: 0) causes a read outside the written destination
region rather than a failure return, and a tag with decoded offset 0 makes
the copy loop spin forever (it exhausts any fuel). -/
theorem c6_no_offset_validation :
    (∀ (ctrl t1 t2 : Nat) (rest : List Nat) (raw : Nat) (check : Bool),
      ctrl &&& 1 = 1 → 1 ≤ raw → (t1 &&& 0x0f) + 3 ≠ 18 →
      0 < ((t1 &&& 0xf0) <<< 4) ||| t2 →
      pglz_decompress_hacked (ctrl :: t1 :: t2 :: rest) (rest.length + 3) raw check =
        DR.oobRead) ∧
    (∀ (fuel : Nat) (out : List Nat) (len : Nat),
      copyLoop fuel out 0 len = DR.fuelEnd) := by
  refine ⟨?_, fun fuel out len => copyLoop_zero_off fuel out len⟩
  intro ctrl t1 t2 rest raw check hc hr h18 hoff
  have hslen : (ctrl :: t1 :: t2 :: rest).length = rest.length + 3 := by simp
  unfold pglz_decompress_hacked
  rw [show 2 * (rest.length + 3) + 2 = (2 * rest.length + 7) + 1 from by omega]
  rw [decompGo_read_ctrl _ _ _ _ _ _ _ (by omega) (by simpa using hr)]
  rw [show (2 * rest.length + 7 : Nat) = (2 * rest.length + 6) + 1 from by omega]
  have hg0 : (ctrl :: t1 :: t2 :: rest).getD 0 0 = ctrl := rfl
  have hg1 : (ctrl :: t1 :: t2 :: rest).getD 1 0 = t1 := rfl
  rw [hg0]
  rw [decompGo_tag (2 * rest.length + 6) (ctrl :: t1 :: t2 :: rest) (rest.length + 3) 1 []
    raw ctrl 8 t1 ((t1 &&& 0x0f) + 3) (((t1 &&& 0xf0) <<< 4) ||| t2)
    ((t1 &&& 0x0f) + 3) 3 (min ((t1 &&& 0x0f) + 3) raw)
    (by omega) (by omega) (by simpa using hr) hc hg1.symm rfl rfl
    (by rw [if_neg h18]) (by rw [if_neg h18]) (by simp)]
  have hlen1 : 1 ≤ min ((t1 &&& 0x0f) + 3) raw := by
    have : 3 ≤ (t1 &&& 0x0f) + 3 := by omega
    omega
  have hcopy : copyLoop (min ((t1 &&& 0x0f) + 3) raw + 1) []
      (((t1 &&& 0xf0) <<< 4) ||| t2) (min ((t1 &&& 0x0f) + 3) raw) = DR.oobRead := by
    rw [show min ((t1 &&& 0x0f) + 3) raw + 1 = (min ((t1 &&& 0x0f) + 3) raw) + 1 from rfl]
    rw [copyLoop]
    by_cases hol : ((t1 &&& 0xf0) <<< 4) ||| t2 ≤ min ((t1 &&& 0x0f) + 3) raw
    · rw [if_pos hol, if_pos (by simpa using hoff)]
    · rw [if_neg hol, if_pos ⟨hlen1, by simpa using hoff⟩]
  rw [hcopy]

/-- Witness for C6: concrete applications of both parts of the amended claim. -/
theorem c6_no_offset_validation_witness :
    pglz_decompress_hacked [1, 240, 0] 3 5 true = DR.oobRead ∧
    copyLoop 5 [] 0 3 = DR.fuelEnd :=
  ⟨by
    have h := c6_no_offset_validation.1 1 240 0 [] 5 true (by decide) (by decide)
      (by decide) (by decide)
    simpa using h,
   c6_no_offset_validation.2 5 [] 3⟩

/-! ### Claim C8: best-match replacement policy -/

/-- Counterexample to claim C8: with a current best of length 16 at offset 1,
a later candidate of equal length 16 (at distance 18) replaces the offset
even though its length is not strictly greater. -/
theorem c8_counterexample :
    (matchStep (List.replicate 40 7) 20 2 16 (16, 1)).2 ≠ 1 ∧
    ¬ 16 < (matchStep (List.replicate 40 7) 20 2 16 (16, 1)).1 := by
  constructor <;> decide

/-- Amended claim C8: a candidate changes the recorded offset only when it is
strictly longer than the current best, or when the current best length is at
least 16 and the candidate matches the best-length prefix exactly (the
`memcmp` fast path), in which case the offset moves to the new candidate even
when the length does not grow. -/
theorem c8_best_replacement (s : List Nat) (ip hp lenBound : Nat) (best : Nat × Nat)
    (hch : (matchStep s ip hp lenBound best).2 ≠ best.2) :
    best.1 < (matchStep s ip hp lenBound best).1 ∨
      (16 ≤ best.1 ∧ best.1 ≤ (matchStep s ip hp lenBound best).1 ∧
        (matchStep s ip hp lenBound best).2 = ip - hp) := by
  unfold matchStep at *
  by_cases h16 : 16 ≤ best.1
  · rw [if_pos h16] at hch ⊢
    by_cases hmem : bytesEq s ip hp best.1
    · simp only [if_pos hmem] at hch ⊢
      right
      refine ⟨h16, ?_, by simp⟩
      exact le_trans (ext32_le s ip hp lenBound (lenBound + 1) best.1)
        (byteExt_le s ip hp lenBound (lenBound + 1) _)
    · simp only [if_neg hmem] at hch
      exact absurd rfl hch
  · rw [if_neg h16] at hch ⊢
    by_cases hr : pglz_read32 s ip = pglz_read32 s hp
    · simp only [if_pos hr] at hch ⊢
      by_cases hlt : best.1 < byteExt s ip hp lenBound (lenBound + 1)
          (ext32 s ip hp lenBound (lenBound + 1) 4)
      · rw [if_pos hlt] at hch ⊢
        exact Or.inl hlt
      · rw [if_neg hlt] at hch
        exact absurd rfl hch
    · simp only [if_neg hr] at hch
      exact absurd rfl hch

/-! ### Budget lemmas: any successful run beats `result_max` -/

theorem tailLoop_lt_result_max (P : CParams) :
    ∀ (rest out : List Nat) (ctrlIdx : Option Nat) (ctrlByte ctrlPos : Nat) (found : Bool)
      (c : List Nat),
      tailLoop P rest out ctrlIdx ctrlByte ctrlPos found = some c →
      c.length < P.result_max := by
  intro rest
  induction rest with
  | nil =>
    intro out ci cb cp f c heq
    rw [tailLoop] at heq
    by_cases hb : P.result_max ≤ (patchCtrl out ci cb).length
    · rw [if_pos hb] at heq; cases heq
    · rw [if_neg hb] at heq
      cases heq
      omega
  | cons b rest ih =>
    intro out ci cb cp f c heq
    rw [tailLoop] at heq
    by_cases hb : P.result_max ≤ out.length
    · rw [if_pos hb] at heq; cases heq
    · rw [if_neg hb] at heq
      by_cases hf : f = false ∧ P.first_success_by ≤ (out.length : Int)
      · rw [if_pos hf] at heq; cases heq
      · rw [if_neg hf] at heq
        exact ih _ _ _ _ _ _ heq

theorem compressMainLoop_lt_result_max (P : CParams) :
    ∀ (fuel p : Nat) (out : List Nat) (ctrlIdx : Option Nat) (ctrlByte ctrlPos : Nat)
      (histNext hidx : Nat) (h : Hist) (found : Bool) (c : List Nat),
      compressMainLoop P fuel p out ctrlIdx ctrlByte ctrlPos histNext hidx h found = some c →
      c.length < P.result_max := by
  intro fuel
  induction fuel with
  | zero => intro p out ci cb cp hn hx hh f c heq; cases heq
  | succ n ih =>
    intro p out ci cb cp hn hx hh f c heq
    rw [compressMainLoop] at heq
    by_cases hp : p < P.csend
    · rw [if_pos hp] at heq
      by_cases hb : P.result_max ≤ out.length
      · rw [if_pos hb] at heq; cases heq
      · rw [if_neg hb] at heq
        by_cases hf : f = false ∧ P.first_success_by ≤ (out.length : Int)
        · rw [if_pos hf] at heq; cases heq
        · rw [if_neg hf] at heq
          rcases hfm : pglz_find_match hh P.s hx p P.csend P.good_match P.good_drop
            with ⟨h1, r⟩
          rw [hfm] at heq
          cases r with
          | some lo => exact ih _ _ _ _ _ _ _ _ _ _ heq
          | none => exact ih _ _ _ _ _ _ _ _ _ _ heq
    · rw [if_neg hp] at heq
      exact tailLoop_lt_result_max P _ _ _ _ _ _ _ heq

/-! ### Claim C3: the ALWAYS strategy and failure -/

theorem patchCtrl_length (out : List Nat) (ci : Option Nat) (cb : Nat) :
    (patchCtrl out ci cb).length = out.length := by
  cases ci <;> simp [patchCtrl]

theorem refreshCtrl_fst_length (out : List Nat) (ci : Option Nat) (cb cp : Nat) :
    out.length ≤ (refreshCtrl out ci cb cp).1.length := by
  unfold refreshCtrl
  split
  · simp [patchCtrl]
    cases ci <;> simp
  · simp

/-- The tail loop emits at least one output byte per remaining source byte. -/
theorem tailLoop_ge (P : CParams) :
    ∀ (rest out : List Nat) (ci : Option Nat) (cb cp : Nat) (f : Bool) (c : List Nat),
      tailLoop P rest out ci cb cp f = some c → out.length + rest.length ≤ c.length := by
  intro rest
  induction rest with
  | nil =>
    intro out ci cb cp f c heq
    rw [tailLoop] at heq
    by_cases hb : P.result_max ≤ (patchCtrl out ci cb).length
    · rw [if_pos hb] at heq; cases heq
    · rw [if_neg hb] at heq
      cases heq
      simp [patchCtrl_length]
  | cons b rest ih =>
    intro out ci cb cp f c heq
    rw [tailLoop] at heq
    by_cases hb : P.result_max ≤ out.length
    · rw [if_pos hb] at heq; cases heq
    · rw [if_neg hb] at heq
      by_cases hf : f = false ∧ P.first_success_by ≤ (out.length : Int)
      · rw [if_pos hf] at heq; cases heq
      · rw [if_neg hf] at heq
        have := ih _ _ _ _ _ _ heq
        have h1 := refreshCtrl_fst_length out ci cb cp
        simp only [List.length_append, List.length_cons, List.length_nil] at this
        simp only [List.length_cons]
        omega

/-- Under the ALWAYS strategy a short input reaches the driver with
`result_max = src_len`, `good_match = 128`, `good_drop = 7`, mask 511. -/
theorem always_unfold (s : List Nat) (h1 : 0 < s.length) (h2 : s.length < 128) :
    pglz_compress s strategy_always_data =
      compressMainLoop ⟨s, s.length - 4, s.length, 2147483647, 128, 7, 511⟩ (s.length + 1)
        0 [] none 0 0 1 (pglz_hist_idx s 0 511) (initHist s.length) false := by
  unfold pglz_compress
  rw [if_neg ?hrej]
  case hrej =>
    simp only [strategy_always_data]
    push_neg
    refine ⟨by norm_num, by omega, by omega⟩
  simp only [strategy_always_data]
  norm_num
  rw [if_neg (by omega : ¬ 21474836 < s.length), if_pos h2]
  rfl

/-- Counterexample to claim C3: the single-byte input fails under ALWAYS
(the output could never be a byte smaller than the input). -/
theorem c3_counterexample :
    pglz_compress [0x41] strategy_always_data = none := by decide

/-- Amended claim C3: `pglz_compress(s, |s|, dst, ALWAYS)` can return -1 for
non-empty inputs: the strategy's early rejection never fires, but the
`result_max = |s|` budget still fails any input whose stream would not save
at least one byte — in particular every input with `|s| ≤ 5` fails, while a
compressible input such as nine identical bytes succeeds. -/
theorem c3_always_can_fail :
    (∀ s : List Nat, 0 < s.length → s.length ≤ 5 →
      pglz_compress s strategy_always_data = none) ∧
    pglz_compress (List.replicate 9 97) strategy_always_data =
      some [2, 97, 1, 1, 97, 97, 97, 97] := by
  constructor
  · intro s h1 h5
    rw [always_unfold s h1 (by omega)]
    by_cases h4 : s.length ≤ 4
    · rw [compressMainLoop]
      rw [if_neg (show ¬ ((0:Nat) <
        (⟨s, s.length - 4, s.length, 2147483647, 128, 7, 511⟩ : CParams).csend) from by
          simp only []; omega)]
      cases hc : tailLoop ⟨s, s.length - 4, s.length, 2147483647, 128, 7, 511⟩
          (s.drop 0) [] none 0 0 false with
      | none => rfl
      | some c =>
        exfalso
        have hge := tailLoop_ge _ _ _ _ _ _ _ _ hc
        have hlt := tailLoop_lt_result_max _ _ _ _ _ _ _ _ hc
        simp only [List.length_nil, List.drop_zero] at hge hlt
        omega
    · have h5' : s.length = 5 := by omega
      rw [h5']
      rw [compressMainLoop]
      rw [if_pos (show (0:Nat) < (⟨s, 5 - 4, 5, 2147483647, 128, 7, 511⟩ : CParams).csend
        from by simp)]
      rw [if_neg (show ¬ ((⟨s, 5 - 4, 5, 2147483647, 128, 7, 511⟩ : CParams).result_max ≤
        ([] : List Nat).length) from by simp)]
      rw [if_neg (show ¬ ((false = false) ∧
        (⟨s, 5 - 4, 5, 2147483647, 128, 7, 511⟩ : CParams).first_success_by ≤
          (([] : List Nat).length : Int)) from by simp)]
      have hfm : pglz_find_match (initHist 5)
          (⟨s, 5 - 4, 5, 2147483647, 128, 7, 511⟩ : CParams).s (pglz_hist_idx s 0 511) 0
          (⟨s, 5 - 4, 5, 2147483647, 128, 7, 511⟩ : CParams).csend
          (⟨s, 5 - 4, 5, 2147483647, 128, 7, 511⟩ : CParams).good_match
          (⟨s, 5 - 4, 5, 2147483647, 128, 7, 511⟩ : CParams).good_drop =
          (initHist 5, none) := rfl
      simp only [hfm]
      rw [show (5:Nat) = 4 + 1 from rfl, compressMainLoop]
      rw [if_neg (show ¬ ((0 + 1:Nat) <
        (⟨s, 4 + 1 - 4, 4 + 1, 2147483647, 128, 7, 511⟩ : CParams).csend) from by simp)]
      cases hc : tailLoop ⟨s, 4 + 1 - 4, 4 + 1, 2147483647, 128, 7, 511⟩ (s.drop (0 + 1))
          ((refreshCtrl [] none 0 0).1 ++ [s.getD 0 0 % 256])
          (refreshCtrl [] none 0 0).2.1 (refreshCtrl [] none 0 0).2.2.1
          (((refreshCtrl [] none 0 0).2.2.2 <<< 1) &&& 0xff) false with
      | none => rfl
      | some c =>
        exfalso
        have hge := tailLoop_ge _ _ _ _ _ _ _ _ hc
        have hlt := tailLoop_lt_result_max _ _ _ _ _ _ _ _ hc
        have hq : (refreshCtrl ([] : List Nat) none 0 0).1 = [0] := by
          simp [refreshCtrl, patchCtrl]
        rw [hq] at hge
        simp only [List.length_append, List.length_cons, List.length_nil,
          List.length_drop, h5'] at hge hlt
        omega
  · decide

/-- Witness for C3: both parts of the amended claim at concrete inputs. -/
theorem c3_always_can_fail_witness :
    pglz_compress [0x42] strategy_always_data = none ∧
    pglz_compress (List.replicate 9 97) strategy_always_data =
      some [2, 97, 1, 1, 97, 97, 97, 97] :=
  ⟨c3_always_can_fail.1 [0x42] (by decide) (by decide), c3_always_can_fail.2⟩

/-! ### Claim C10: a successful compression is strictly smaller -/

/-- Claim C10: whenever `pglz_compress` succeeds, the compressed size is
strictly smaller than the input size, for every input and every strategy,
because success requires `result_size < result_max` and `result_max` never
exceeds `src_len`. -/
theorem c10_success_smaller (source : List Nat) (strategy : PGLZ_Strategy) (c : List Nat)
    (h : pglz_compress source strategy = some c) : c.length < source.length := by
  unfold pglz_compress at h
  by_cases hrej : strategy.match_size_good ≤ 0 ∨
      (source.length : Int) < strategy.min_input_size ∨
      (source.length : Int) > strategy.max_input_size
  · rw [if_pos hrej] at h; cases h
  · rw [if_neg hrej] at h
    have hlt := compressMainLoop_lt_result_max _ _ _ _ _ _ _ _ _ _ _ _ h
    have hnr : (if 99 < (max strategy.min_comp_rate 0).toNat then 99
        else (max strategy.min_comp_rate 0).toNat) ≤ 99 := by
      split <;> omega
    set nr := (if 99 < (max strategy.min_comp_rate 0).toNat then 99
        else (max strategy.min_comp_rate 0).toNat) with hnrdef
    have hrm : (if 21474836 < source.length then
        (source.length / 100) * (100 - nr)
        else (source.length * (100 - nr)) / 100) ≤ source.length := by
      split
      · calc (source.length / 100) * (100 - nr) ≤ (source.length / 100) * 100 := by
              exact Nat.mul_le_mul_left _ (by omega)
          _ ≤ source.length := Nat.div_mul_le_self _ _
      · calc (source.length * (100 - nr)) / 100 ≤ (source.length * 100) / 100 := by
              exact Nat.div_le_div_right (Nat.mul_le_mul_left _ (by omega))
          _ = source.length := Nat.mul_div_cancel _ (by norm_num)
    simp only at hlt
    omega

set_option maxRecDepth 10000 in
/-- Witness for C10: a concrete compressible input under DEFAULT. -/
theorem c10_success_smaller_witness :
    (List.replicate 200 32 |> pglz_compress) strategy_default_data =
      some [0x02, 0x20, 0x0f, 0x01, 0xb1, 0x20, 0x20, 0x20, 0x20] ∧
    ([0x02, 0x20, 0x0f, 0x01, 0xb1, 0x20, 0x20, 0x20, 0x20] : List Nat).length <
      (List.replicate 200 32 : List Nat).length :=
  ⟨by decide,
   c10_success_smaller (List.replicate 200 32) strategy_default_data _ (by decide)⟩

/-- Witness for C8: a strictly longer candidate at a state where the offset
changes. -/
theorem c8_best_replacement_witness :
    (0 : Nat) < (matchStep (List.replicate 8 5) 4 0 4 (0, 0)).1 ∨
      (16 ≤ (0 : Nat) ∧ (0 : Nat) ≤ (matchStep (List.replicate 8 5) 4 0 4 (0, 0)).1 ∧
        (matchStep (List.replicate 8 5) 4 0 4 (0, 0)).2 = 4 - 0) :=
  c8_best_replacement (List.replicate 8 5) 4 0 4 (0, 0) (by decide)

/-! ### Claim C7: emitted tags are well-formed -/

theorem posOf_bounds (p id : Nat) (h1 : 1 ≤ id) (h2 : id ≤ p) :
    posOf p id < p ∧ p ≤ posOf p id + 4094 := by
  unfold posOf
  omega

theorem matchStep_unfold (s : List Nat) (ip hp lenBound : Nat) (best : Nat × Nat) :
    matchStep s ip hp lenBound best =
      if 16 ≤ best.1 then
        if bytesEq s ip hp best.1 then
          (byteExt s ip hp lenBound (lenBound + 1)
            (ext32 s ip hp lenBound (lenBound + 1) best.1), ip - hp)
        else best
      else
        if pglz_read32 s ip = pglz_read32 s hp then
          if best.1 < byteExt s ip hp lenBound (lenBound + 1)
              (ext32 s ip hp lenBound (lenBound + 1) 4) then
            (byteExt s ip hp lenBound (lenBound + 1)
              (ext32 s ip hp lenBound (lenBound + 1) 4), ip - hp)
          else best
        else best := rfl

theorem matchStep_cases (s : List Nat) (ip hp lenBound : Nat) (best : Nat × Nat) :
    matchStep s ip hp lenBound best = best ∨
    (matchStep s ip hp lenBound best).2 = ip - hp := by
  rw [matchStep_unfold]
  split
  · split
    · right; rfl
    · left; rfl
  · split
    · split
      · right; rfl
      · left; rfl
    · left; rfl

theorem findLoopW (h : Hist) (s : List Nat) (hidx p lenBound gd hn : Nat)
    (hinv : HistInvW h hn p) :
    ∀ (fuel entryId gm : Nat) (best : Nat × Nat),
      1 ≤ entryId → entryId ≤ 4094 → entryId ≤ p →
      (best = (0, 0) ∨ (1 ≤ best.2 ∧ best.2 ≤ 4094)) →
      (findLoop h s hidx p lenBound gd fuel entryId gm best = (0, 0) ∨
        (1 ≤ (findLoop h s hidx p lenBound gd fuel entryId gm best).2 ∧
          (findLoop h s hidx p lenBound gd fuel entryId gm best).2 ≤ 4094)) := by
  intro fuel
  induction fuel with
  | zero =>
    intro entryId gm best h1 h2 h3 hbest
    rw [findLoop]
    exact hbest
  | succ n ih =>
    intro entryId gm best h1 h2 h3 hbest
    have hw := hinv.2.2.1 entryId (by omega) h1 h3
    have hpos := posOf_bounds p entryId h1 h3
    rw [← hw.1] at hpos
    have hb' : matchStep s p (h.entries entryId).pos lenBound best = (0, 0) ∨
        (1 ≤ (matchStep s p (h.entries entryId).pos lenBound best).2 ∧
          (matchStep s p (h.entries entryId).pos lenBound best).2 ≤ 4094) := by
      rcases matchStep_cases s p (h.entries entryId).pos lenBound best with he | he
      · rw [he]; exact hbest
      · right; rw [he]; omega
    have hstep : findLoop h s hidx p lenBound gd (n + 1) entryId gm best =
        if gm ≤ (matchStep s p (h.entries entryId).pos lenBound best).1 ∨
            (h.entries entryId).pos ≤ (h.entries (h.entries entryId).next_id).pos ∨
            (h.entries (h.entries entryId).next_id).hist_idx ≠ hidx then
          matchStep s p (h.entries entryId).pos lenBound best
        else
          findLoop h s hidx p lenBound gd n (h.entries entryId).next_id
            (gm - ((gm * gd) >>> 7)) (matchStep s p (h.entries entryId).pos lenBound best)
      := rfl
    rw [hstep]
    split
    · exact hb'
    · rename_i hcont
      push_neg at hcont
      have hnid1 : 1 ≤ (h.entries entryId).next_id := by
        by_contra hz
        have hz0 : (h.entries entryId).next_id = 0 := by omega
        rw [hz0] at hcont
        have := hinv.2.1
        omega
      exact ih (h.entries entryId).next_id _ _ hnid1 hw.2.1 hw.2.2 hb'



theorem histAdd_unfold (hn hidx : Nat) (h : Hist) (s : List Nat) (p mask : Nat) :
    pglz_hist_add hn hidx h s p mask =
      (if hn + 1 = 4095 then 1 else hn + 1, pglz_hist_next_idx hidx s p mask,
        ⟨fun i => if i = hidx then hn else h.start i,
         fun i => if i = hn then ⟨h.start hidx, hidx, p⟩ else h.entries i⟩) := rfl

theorem find_match_unfold (h : Hist) (s : List Nat) (hidx ip srcend gm gd : Nat) :
    pglz_find_match h s hidx ip srcend gm gd =
      if h.start hidx = 0 then (h, none)
      else if (h.entries (h.start hidx)).hist_idx ≠ hidx then
        (⟨fun i => if i = hidx then 0 else h.start i, h.entries⟩, none)
      else
        if 2 < min (findLoop h s hidx ip (min (srcend - ip) 273) gd
            ((h.entries (h.start hidx)).pos + 1) (h.start hidx) gm (0, 0)).1
            (min (srcend - ip) 273) then
          (h, some (min (findLoop h s hidx ip (min (srcend - ip) 273) gd
            ((h.entries (h.start hidx)).pos + 1) (h.start hidx) gm (0, 0)).1
            (min (srcend - ip) 273),
            (findLoop h s hidx ip (min (srcend - ip) 273) gd
              ((h.entries (h.start hidx)).pos + 1) (h.start hidx) gm (0, 0)).2))
        else (h, none) := rfl

theorem initHist_HistInvW (n : Nat) : HistInvW (initHist n) 1 0 := by
  refine ⟨rfl, by simp [initHist], ?_, ?_, ?_⟩
  · intro id hlt h1 h0
    omega
  · intro id hlt h1 _
    simp [initHist]
    omega
  · intro i _
    left
    rfl

theorem histAdd_HistInvW (h : Hist) (hn p hidx mask : Nat) (s : List Nat)
    (hinv : HistInvW h hn p) (hhx : hidx < 8192) (hsent : p < (h.entries 0).pos) :
    HistInvW (pglz_hist_add hn hidx h s p mask).2.2
      (pglz_hist_add hn hidx h s p mask).1 (p + 1) := by
  obtain ⟨hhn, hs0, hwr, hun, hst⟩ := hinv
  rw [histAdd_unfold]
  have hn1 : 1 ≤ hn := by omega
  have hn4 : hn ≤ 4094 := by omega
  refine ⟨?_, ?_, ?_, ?_, ?_⟩
  · simp only []
    split <;> omega
  · simp only []
    rw [if_neg (by omega : ¬ (0 : Nat) = hn)]
    omega
  · intro id hlt h1 hidp
    simp only []
    by_cases hid : id = hn
    · subst hid
      rw [if_pos rfl]
      refine ⟨?_, ?_, ?_⟩
      · simp only [posOf]
        omega
      · rcases hst hidx hhx with h0 | hb
        · simp [h0]
        · simp only []
          omega
      · rcases hst hidx hhx with h0 | hb
        · simp [h0]
        · simp only []
          omega
    · rw [if_neg hid]
      have hidp' : id ≤ p := by omega
      have := hwr id hlt h1 hidp'
      refine ⟨?_, by omega, by omega⟩
      rw [this.1]
      simp only [posOf]
      omega
  · intro id hlt h1 hp1
    simp only []
    rw [if_neg (by omega : ¬ id = hn)]
    exact hun id hlt h1 (by omega)
  · intro i hi
    simp only []
    by_cases hih : i = hidx
    · rw [if_pos hih]
      right
      omega
    · rw [if_neg hih]
      rcases hst i hi with h0 | hb
      · left; exact h0
      · right; omega

theorem find_match_HistInvW (h h' : Hist) (hn p hidx srcend gm gd : Nat) (s : List Nat)
    (r : Option (Nat × Nat)) (hinv : HistInvW h hn p)
    (heq : pglz_find_match h s hidx p srcend gm gd = (h', r)) :
    HistInvW h' hn p := by
  rw [find_match_unfold] at heq
  by_cases hhead : h.start hidx = 0
  · rw [if_pos hhead] at heq
    simp only [Prod.mk.injEq] at heq
    obtain ⟨hh, -⟩ := heq
    subst hh
    exact hinv
  · rw [if_neg hhead] at heq
    by_cases hstale : (h.entries (h.start hidx)).hist_idx ≠ hidx
    · rw [if_pos hstale] at heq
      simp only [Prod.mk.injEq] at heq
      obtain ⟨hh, -⟩ := heq
      subst hh
      obtain ⟨hhn, hs0, hwr, hun, hst⟩ := hinv
      refine ⟨hhn, hs0, hwr, hun, ?_⟩
      intro i hi
      simp only []
      by_cases hih : i = hidx
      · rw [if_pos hih]; left; rfl
      · rw [if_neg hih]; exact hst i hi
    · rw [if_neg hstale] at heq
      by_cases hg : 2 < min (findLoop h s hidx p (min (srcend - p) 273) gd
          ((h.entries (h.start hidx)).pos + 1) (h.start hidx) gm (0, 0)).1
          (min (srcend - p) 273)
      · rw [if_pos hg] at heq
        simp only [Prod.mk.injEq] at heq
        obtain ⟨hh, -⟩ := heq
        subst hh
        exact hinv
      · rw [if_neg hg] at heq
        simp only [Prod.mk.injEq] at heq
        obtain ⟨hh, -⟩ := heq
        subst hh
        exact hinv

theorem find_match_bounds (h h' : Hist) (hn p hidx srcend gm gd len off : Nat)
    (s : List Nat) (hinv : HistInvW h hn p) (hhx : hidx < 8192)
    (heq : pglz_find_match h s hidx p srcend gm gd = (h', some (len, off))) :
    1 ≤ off ∧ off ≤ 4095 ∧ 3 ≤ len ∧ len ≤ 273 := by
  rw [find_match_unfold] at heq
  by_cases hhead : h.start hidx = 0
  · rw [if_pos hhead] at heq
    simp at heq
  · rw [if_neg hhead] at heq
    by_cases hstale : (h.entries (h.start hidx)).hist_idx ≠ hidx
    · rw [if_pos hstale] at heq
      simp at heq
    · rw [if_neg hstale] at heq
      by_cases hg : 2 < min (findLoop h s hidx p (min (srcend - p) 273) gd
          ((h.entries (h.start hidx)).pos + 1) (h.start hidx) gm (0, 0)).1
          (min (srcend - p) 273)
      · rw [if_pos hg] at heq
        simp only [Prod.mk.injEq, Option.some.injEq] at heq
        obtain ⟨-, hlen, hoff⟩ := heq
        have hstart : 1 ≤ h.start hidx ∧ h.start hidx ≤ 4094 ∧ h.start hidx ≤ p := by
          rcases hinv.2.2.2.2 hidx hhx with h0 | hb
          · exact absurd h0 hhead
          · exact hb
        have hwalk := findLoopW h s hidx p (min (srcend - p) 273) gd hn hinv
          ((h.entries (h.start hidx)).pos + 1) (h.start hidx) gm (0, 0)
          hstart.1 hstart.2.1 hstart.2.2 (Or.inl rfl)
        rcases hwalk with hz | hb
        · rw [hz] at hg
          simp at hg
        · refine ⟨by omega, by omega, by omega, by omega⟩
      · rw [if_neg hg] at heq
        simp at heq

/-- Claim C7: every match tag emitted during any run of `pglz_compress` is
well-formed: offsets satisfy 1 ≤ offset ≤ 4095 (in fact ≤ 4094) and lengths
satisfy 3 ≤ len ≤ 273, even with FIFO-recycled hash-chain entries and lazy
stale detection.  Stated as the run invariant `HistInvW`: it holds initially,
is preserved by every history insertion and every `pglz_find_match` call, and
under it every successful `pglz_find_match` returns a well-formed tag. -/
theorem c7_wf_tags :
    (∀ n : Nat, HistInvW (initHist n) 1 0) ∧
    (∀ (h : Hist) (hn p hidx mask : Nat) (s : List Nat),
      HistInvW h hn p → hidx < 8192 → p < (h.entries 0).pos →
      HistInvW (pglz_hist_add hn hidx h s p mask).2.2
        (pglz_hist_add hn hidx h s p mask).1 (p + 1)) ∧
    (∀ (h h' : Hist) (hn p hidx srcend gm gd : Nat) (s : List Nat) (r : Option (Nat × Nat)),
      HistInvW h hn p → pglz_find_match h s hidx p srcend gm gd = (h', r) →
      HistInvW h' hn p) ∧
    (∀ (h h' : Hist) (hn p hidx srcend gm gd len off : Nat) (s : List Nat),
      HistInvW h hn p → hidx < 8192 →
      pglz_find_match h s hidx p srcend gm gd = (h', some (len, off)) →
      1 ≤ off ∧ off ≤ 4095 ∧ 3 ≤ len ∧ len ≤ 273) :=
  ⟨initHist_HistInvW,
   fun h hn p hidx mask s hinv hhx hsent =>
     histAdd_HistInvW h hn p hidx mask s hinv hhx hsent,
   fun h h' hn p hidx srcend gm gd s r hinv heq =>
     find_match_HistInvW h h' hn p hidx srcend gm gd s r hinv heq,
   fun h h' hn p hidx srcend gm gd len off s hinv hhx heq =>
     find_match_bounds h h' hn p hidx srcend gm gd len off s hinv hhx heq⟩

/-- Witness for C7: tag bounds at a concrete one-entry history state. -/
theorem c7_wf_tags_witness :
    1 ≤ 1 ∧ (1 : Nat) ≤ 4095 ∧ 3 ≤ 4 ∧ (4 : Nat) ≤ 273 :=
  c7_wf_tags.2.2.2
    ⟨fun i => if i = 427 then 1 else 0,
     fun id => if id = 0 then ⟨0, 0, 9⟩ else if id = 1 then ⟨0, 427, 0⟩ else ⟨0, 0, 0⟩⟩
    ⟨fun i => if i = 427 then 1 else 0,
     fun id => if id = 0 then ⟨0, 0, 9⟩ else if id = 1 then ⟨0, 427, 0⟩ else ⟨0, 0, 0⟩⟩
    2 1 427 5 128 7 4 1 (List.replicate 9 7)
    (by
      refine ⟨rfl, by norm_num, ?_, ?_, ?_⟩
      · intro id hlt h1 hp
        have hid : id = 1 := by omega
        subst hid
        exact ⟨rfl, by norm_num, by norm_num⟩
      · intro id hlt h1 hp
        show (if id = 0 then (⟨0, 0, 9⟩ : PGLZ_HistEntry)
          else if id = 1 then ⟨0, 427, 0⟩ else ⟨0, 0, 0⟩) = ⟨0, 0, 0⟩
        rw [if_neg (by omega : ¬ id = 0), if_neg (by omega : ¬ id = 1)]
      · intro i hi
        by_cases hih : i = 427
        · right
          have hs : (if i = 427 then (1 : Nat) else 0) = 1 := by rw [if_pos hih]
          show 1 ≤ (if i = 427 then (1 : Nat) else 0) ∧
            (if i = 427 then (1 : Nat) else 0) ≤ 4094 ∧
            (if i = 427 then (1 : Nat) else 0) ≤ 1
          rw [hs]
          norm_num
        · left
          show (if i = 427 then (1 : Nat) else 0) = 0
          rw [if_neg hih])
    (by decide) rfl



/-! ### Claim C1: infrastructure for the compress/decompress round-trip -/

theorem IsBytes_getD (s : List Nat) (hs : IsBytes s) (i : Nat) : s.getD i 0 < 256 := by
  rw [List.getD_eq_getElem?_getD]
  by_cases h : i < s.length
  · rw [List.getElem?_eq_getElem h]
    exact hs _ (List.getElem_mem h)
  · rw [List.getElem?_eq_none (by omega)]
    norm_num

theorem read32_inj (s : List Nat) (hs : IsBytes s) (i j : Nat)
    (heq : pglz_read32 s i = pglz_read32 s j) :
    ∀ k < 4, s.getD (i + k) 0 = s.getD (j + k) 0 := by
  unfold pglz_read32 at heq
  have b0 := IsBytes_getD s hs i
  have b1 := IsBytes_getD s hs (i+1)
  have b2 := IsBytes_getD s hs (i+2)
  have b3 := IsBytes_getD s hs (i+3)
  have c0 := IsBytes_getD s hs j
  have c1 := IsBytes_getD s hs (j+1)
  have c2 := IsBytes_getD s hs (j+2)
  have c3 := IsBytes_getD s hs (j+3)
  intro k hk
  interval_cases k <;> first | (simp only [Nat.add_zero]; omega) | omega

theorem bytesEq_iff (s : List Nat) :
    ∀ (k i j : Nat), bytesEq s i j k = true ↔
      ∀ m < k, s.getD (i + m) 0 = s.getD (j + m) 0 := by
  intro k
  induction k with
  | zero => intro i j; simp [bytesEq]
  | succ n ih =>
    intro i j
    rw [bytesEq]
    rw [Bool.and_eq_true, beq_iff_eq, ih (i+1) (j+1)]
    constructor
    · rintro ⟨h0, hrest⟩ m hm
      cases m with
      | zero => simpa using h0
      | succ m' =>
        have := hrest m' (by omega)
        have e1 : i + (m' + 1) = i + 1 + m' := by omega
        have e2 : j + (m' + 1) = j + 1 + m' := by omega
        rw [e1, e2]
        exact this
    · intro hall
      refine ⟨by simpa using hall 0 (by omega), ?_⟩
      intro m hm
      have := hall (m + 1) (by omega)
      have e1 : i + (m + 1) = i + 1 + m := by omega
      have e2 : j + (m + 1) = j + 1 + m := by omega
      rw [e1, e2] at this
      exact this

theorem ext32_spec (s : List Nat) (hs : IsBytes s) (ip hp lenBound : Nat) :
    ∀ (fuel curLen : Nat),
      (∀ m < curLen, s.getD (hp + m) 0 = s.getD (ip + m) 0) →
      curLen ≤ ext32 s ip hp lenBound fuel curLen ∧
      ext32 s ip hp lenBound fuel curLen ≤ max lenBound curLen ∧
      ∀ m < ext32 s ip hp lenBound fuel curLen, s.getD (hp + m) 0 = s.getD (ip + m) 0 := by
  intro fuel
  induction fuel with
  | zero =>
    intro curLen hcur
    rw [ext32]
    exact ⟨le_refl _, by omega, hcur⟩
  | succ n ih =>
    intro curLen hcur
    rw [ext32]
    split
    · rename_i hcond
      obtain ⟨hb, hr⟩ := hcond
      have hnew : ∀ m < curLen + 4, s.getD (hp + m) 0 = s.getD (ip + m) 0 := by
        intro m hm
        by_cases hmc : m < curLen
        · exact hcur m hmc
        · have h4 := read32_inj s hs (hp + curLen) (ip + curLen) hr.symm (m - curLen) (by omega)
          have e1 : hp + curLen + (m - curLen) = hp + m := by omega
          have e2 : ip + curLen + (m - curLen) = ip + m := by omega
          rw [e1, e2] at h4
          exact h4
      obtain ⟨ih1, ih2, ih3⟩ := ih (curLen + 4) hnew
      exact ⟨by omega, by omega, ih3⟩
    · exact ⟨le_refl _, by omega, hcur⟩

theorem byteExt_spec (s : List Nat) (ip hp lenBound : Nat) :
    ∀ (fuel curLen : Nat),
      (∀ m < curLen, s.getD (hp + m) 0 = s.getD (ip + m) 0) →
      curLen ≤ byteExt s ip hp lenBound fuel curLen ∧
      byteExt s ip hp lenBound fuel curLen ≤ max lenBound curLen ∧
      ∀ m < byteExt s ip hp lenBound fuel curLen, s.getD (hp + m) 0 = s.getD (ip + m) 0 := by
  intro fuel
  induction fuel with
  | zero =>
    intro curLen hcur
    rw [byteExt]
    exact ⟨le_refl _, by omega, hcur⟩
  | succ n ih =>
    intro curLen hcur
    rw [byteExt]
    split
    · rename_i hcond
      have hnew : ∀ m < curLen + 1, s.getD (hp + m) 0 = s.getD (ip + m) 0 := by
        intro m hm
        by_cases hmc : m < curLen
        · exact hcur m hmc
        · have : m = curLen := by omega
          subst this
          exact hcond.2.symm
      obtain ⟨ih1, ih2, ih3⟩ := ih (curLen + 1) hnew
      exact ⟨by omega, by omega, ih3⟩
    · exact ⟨le_refl _, by omega, hcur⟩

theorem matchStep_WalkBest (s : List Nat) (hs : IsBytes s) (ip hp lenBound : Nat)
    (hhp : hp < ip) (best : Nat × Nat) (hb : WalkBest s ip lenBound best) :
    WalkBest s ip lenBound (matchStep s ip hp lenBound best) := by
  have hip : ip - (ip - hp) = hp := by omega
  rw [matchStep_unfold]
  split
  · rename_i h16
    split
    · rename_i hmem
      have hpre : ∀ m < best.1, s.getD (hp + m) 0 = s.getD (ip + m) 0 := by
        intro m hm
        exact ((bytesEq_iff s best.1 ip hp).1 hmem m hm).symm
      obtain ⟨e1, e2, e3⟩ := ext32_spec s hs ip hp lenBound (lenBound + 1) best.1 hpre
      obtain ⟨b1, b2, b3⟩ := byteExt_spec s ip hp lenBound (lenBound + 1) _ e3
      right
      refine ⟨by omega, by omega, ?_, ?_, ?_⟩
      · have h4 : 4 ≤ best.1 := by omega
        simp only []
        omega
      · rcases hb with h0 | hbb
        · rw [h0] at h16; simp at h16
        · simp only []
          omega
      · intro k hk
        simp only [] at hk ⊢
        rw [hip]
        exact b3 k hk
    · exact hb
  · split
    · rename_i hr32
      split
      · rename_i hlt
        have hpre : ∀ m < 4, s.getD (hp + m) 0 = s.getD (ip + m) 0 := by
          intro m hm
          exact (read32_inj s hs ip hp hr32 m hm).symm
        obtain ⟨e1, e2, e3⟩ := ext32_spec s hs ip hp lenBound (lenBound + 1) 4 hpre
        obtain ⟨b1, b2, b3⟩ := byteExt_spec s ip hp lenBound (lenBound + 1) _ e3
        right
        refine ⟨by omega, by omega, by simp only []; omega, by simp only []; omega, ?_⟩
        intro k hk
        simp only [] at hk ⊢
        rw [hip]
        exact b3 k hk
      · exact hb
    · exact hb

theorem findLoop_WalkBest (h : Hist) (s : List Nat) (hs : IsBytes s)
    (hidx p lenBound gd hn : Nat) (hinv : HistInvW h hn p) :
    ∀ (fuel entryId gm : Nat) (best : Nat × Nat),
      1 ≤ entryId → entryId ≤ 4094 → entryId ≤ p →
      WalkBest s p lenBound best →
      WalkBest s p lenBound (findLoop h s hidx p lenBound gd fuel entryId gm best) := by
  intro fuel
  induction fuel with
  | zero =>
    intro entryId gm best h1 h2 h3 hbest
    rw [findLoop]
    exact hbest
  | succ n ih =>
    intro entryId gm best h1 h2 h3 hbest
    have hw := hinv.2.2.1 entryId (by omega) h1 h3
    have hpos := posOf_bounds p entryId h1 h3
    rw [← hw.1] at hpos
    have hb' := matchStep_WalkBest s hs p (h.entries entryId).pos lenBound hpos.1 best hbest
    have hstep : findLoop h s hidx p lenBound gd (n + 1) entryId gm best =
        if gm ≤ (matchStep s p (h.entries entryId).pos lenBound best).1 ∨
            (h.entries entryId).pos ≤ (h.entries (h.entries entryId).next_id).pos ∨
            (h.entries (h.entries entryId).next_id).hist_idx ≠ hidx then
          matchStep s p (h.entries entryId).pos lenBound best
        else
          findLoop h s hidx p lenBound gd n (h.entries entryId).next_id
            (gm - ((gm * gd) >>> 7)) (matchStep s p (h.entries entryId).pos lenBound best)
      := rfl
    rw [hstep]
    split
    · exact hb'
    · rename_i hcont
      push_neg at hcont
      have hnid1 : 1 ≤ (h.entries entryId).next_id := by
        by_contra hz
        have hz0 : (h.entries entryId).next_id = 0 := by omega
        rw [hz0] at hcont
        have := hinv.2.1
        omega
      exact ih (h.entries entryId).next_id _ _ hnid1 hw.2.1 hw.2.2 hb'

theorem find_match_spec (h h' : Hist) (hn p hidx srcend gm gd len off : Nat)
    (s : List Nat) (hs : IsBytes s) (hinv : HistInvW h hn p) (hhx : hidx < 8192)
    (heq : pglz_find_match h s hidx p srcend gm gd = (h', some (len, off))) :
    1 ≤ off ∧ off ≤ p ∧ 3 ≤ len ∧ len ≤ srcend - p ∧ len ≤ 273 ∧
      ∀ k < len, s.getD (p - off + k) 0 = s.getD (p + k) 0 := by
  rw [find_match_unfold] at heq
  by_cases hhead : h.start hidx = 0
  · rw [if_pos hhead] at heq
    simp at heq
  · rw [if_neg hhead] at heq
    by_cases hstale : (h.entries (h.start hidx)).hist_idx ≠ hidx
    · rw [if_pos hstale] at heq
      simp at heq
    · rw [if_neg hstale] at heq
      by_cases hg : 2 < min (findLoop h s hidx p (min (srcend - p) 273) gd
          ((h.entries (h.start hidx)).pos + 1) (h.start hidx) gm (0, 0)).1
          (min (srcend - p) 273)
      · rw [if_pos hg] at heq
        simp only [Prod.mk.injEq, Option.some.injEq] at heq
        obtain ⟨-, hlen, hoff⟩ := heq
        subst hlen
        subst hoff
        have hstart : 1 ≤ h.start hidx ∧ h.start hidx ≤ 4094 ∧ h.start hidx ≤ p := by
          rcases hinv.2.2.2.2 hidx hhx with h0 | hb
          · exact absurd h0 hhead
          · exact hb
        have hwalk := findLoop_WalkBest h s hs hidx p (min (srcend - p) 273) gd hn hinv
          ((h.entries (h.start hidx)).pos + 1) (h.start hidx) gm (0, 0)
          hstart.1 hstart.2.1 hstart.2.2 (Or.inl rfl)
        rcases hwalk with hz | hb
        · rw [hz] at hg
          simp at hg
        · obtain ⟨w1, w2, w3, w4, w5⟩ := hb
          refine ⟨by omega, by omega, by omega, by omega, by omega, ?_⟩
          intro k hk
          exact w5 k (by omega)
      · rw [if_neg hg] at heq
        simp at heq

theorem or_two_pow_eq_add (a j : Nat) (hj : j ≤ 7) (ha : a < 2 ^ j) :
    a ||| 2 ^ j = a + 2 ^ j := by
  interval_cases j <;> revert a <;> decide

theorem pow_shift_mask (j : Nat) (hj : j ≤ 7) :
    ((2 ^ j % 256) <<< 1) &&& 255 = 2 ^ (j + 1) % 256 := by
  interval_cases j <;> decide

theorem pow_mod_and_255 (j : Nat) (hj : j ≤ 8) :
    (2 ^ j % 256) &&& 255 = 2 ^ j % 256 ∧ (2 ^ j % 256 = 0 ↔ j = 8) := by
  interval_cases j <;> decide

theorem set_append_length (l1 l2 : List Nat) (a b : Nat) :
    (l1 ++ a :: l2).set l1.length b = l1 ++ b :: l2 := by
  induction l1 with
  | nil => rfl
  | cons x xs ih =>
    simp only [List.cons_append, List.length_cons, List.set_cons_succ, ih]

theorem take_succ_getD (s : List Nat) (n : Nat) (h : n < s.length) :
    s.take (n + 1) = s.take n ++ [s.getD n 0] := by
  rw [List.take_succ, List.getElem?_eq_getElem h, List.getD_eq_getElem s 0 h]
  rfl

theorem take_drop_eq_of_getD (s : List Nat) (n off m : Nat) (hoff : off ≤ n)
    (hm : n + m ≤ s.length)
    (heq : ∀ k < m, s.getD (n - off + k) 0 = s.getD (n + k) 0) :
    (s.drop (n - off)).take m = (s.drop n).take m := by
  apply List.ext_getElem
  · simp only [List.length_take, List.length_drop]
    omega
  · intro i h1 h2
    have hi : i < m := by
      simp only [List.length_take, List.length_drop] at h1
      omega
    simp only [List.getElem_take, List.getElem_drop]
    have hlt1 : n - off + i < s.length := by omega
    have hlt2 : n + i < s.length := by omega
    have e1 := List.getD_eq_getElem s 0 hlt1
    have e2 := List.getD_eq_getElem s 0 hlt2
    have := heq i hi
    rw [e1, e2] at this
    exact this

theorem drop_cons_inv (s r : List Nat) (p b : Nat) (h : s.drop p = b :: r) :
    p < s.length ∧ s.getD p 0 = b ∧ r = s.drop (p + 1) := by
  have hlen : p < s.length := by
    by_contra hge
    rw [List.drop_eq_nil_of_le (by omega)] at h
    cases h
  refine ⟨hlen, ?_, ?_⟩
  · have h0 : (s.drop p)[0]? = some b := by rw [h]; simp
    rw [List.getElem?_drop] at h0
    simp only [Nat.add_zero] at h0
    rw [List.getD_eq_getElem?_getD, h0]
    rfl
  · have h2 : (s.drop p).drop 1 = s.drop (p + 1) := by
      rw [List.drop_drop]
    rw [← h2, h]
    rfl

theorem encItems_append (g1 g2 : List CItem) :
    encItems (g1 ++ g2) = encItems g1 ++ encItems g2 := by
  induction g1 with
  | nil => rfl
  | cons it g1 ih => simp [encItems, ih]

theorem itemsLen_append (g1 g2 : List CItem) :
    itemsLen (g1 ++ g2) = itemsLen g1 + itemsLen g2 := by
  induction g1 with
  | nil => simp [itemsLen]
  | cons it g1 ih => simp [itemsLen, ih]; omega

theorem ctrlOf_append (g1 g2 : List CItem) :
    ctrlOf (g1 ++ g2) = ctrlOf g1 + 2 ^ g1.length * ctrlOf g2 := by
  induction g1 with
  | nil => simp [ctrlOf]
  | cons it g1 ih =>
    simp only [List.cons_append, List.append_eq, ctrlOf, List.length_cons]
    rw [ih]
    ring

theorem ctrlOf_lt (g : List CItem) : ctrlOf g < 2 ^ g.length := by
  induction g with
  | nil => simp [ctrlOf]
  | cons it g ih =>
    simp only [ctrlOf, List.length_cons, pow_succ]
    cases it <;> simp [itemBit] <;> omega

theorem ctrlOf_bit (g : List CItem) :
    ∀ i < g.length, (ctrlOf g >>> i) &&& 1 = itemBit (g.getD i (.lit 0)) := by
  induction g with
  | nil => intro i hi; cases hi
  | cons it g ih =>
    intro i hi
    cases i with
    | zero =>
      simp only [Nat.shiftRight_zero, Nat.and_one_is_mod, ctrlOf, List.getD_cons_zero]
      cases it <;> simp [itemBit]
    | succ i =>
      simp only [ctrlOf, List.getD_cons_succ]
      have hb : itemBit it < 2 := by cases it <;> simp [itemBit]
      have hdiv : (itemBit it + 2 * ctrlOf g) >>> (i + 1) = ctrlOf g >>> i := by
        rw [Nat.shiftRight_eq_div_pow, Nat.shiftRight_eq_div_pow, pow_succ,
          Nat.mul_comm (2 ^ i) 2, ← Nat.div_div_eq_div_mul]
        congr 1
        omega
      rw [hdiv]
      exact ih i (by simpa using hi)

theorem ItemsOk_append (s : List Nat) (g1 g2 : List CItem) :
    ∀ n, ItemsOk s n (g1 ++ g2) ↔ ItemsOk s n g1 ∧ ItemsOk s (n + itemsLen g1) g2 := by
  induction g1 with
  | nil => intro n; simp [ItemsOk, itemsLen]
  | cons it g1 ih =>
    intro n
    have e : n + itemsLen (it :: g1) = n + itemLen it + itemsLen g1 := by
      simp only [itemsLen]
      omega
    simp only [List.cons_append, List.append_eq, ItemsOk, e, ih (n + itemLen it), and_assoc]

theorem GroupsOk_append (s : List Nat) (gs1 gs2 : List (List CItem)) :
    ∀ n, GroupsOk s n (gs1 ++ gs2) ↔
      GroupsOk s n gs1 ∧ GroupsOk s (n + groupsLen gs1) gs2 := by
  induction gs1 with
  | nil => intro n; simp [GroupsOk, groupsLen]
  | cons g gs1 ih =>
    intro n
    have e : n + groupsLen (g :: gs1) = n + itemsLen g + groupsLen gs1 := by
      simp only [groupsLen]
      omega
    simp only [List.cons_append, List.append_eq, GroupsOk, e, ih (n + itemsLen g), and_assoc]

theorem groupsLen_append (gs1 gs2 : List (List CItem)) :
    groupsLen (gs1 ++ gs2) = groupsLen gs1 + groupsLen gs2 := by
  induction gs1 with
  | nil => simp [groupsLen]
  | cons g gs1 ih => simp [groupsLen, ih]; omega

theorem encGroups_append (gs1 gs2 : List (List CItem)) :
    encGroups (gs1 ++ gs2) = encGroups gs1 ++ encGroups gs2 := by
  induction gs1 with
  | nil => rfl
  | cons g gs1 ih => simp [encGroups, ih]

theorem itemLen_pos (s : List Nat) (n : Nat) (it : CItem) (h : ItemOk s n it) :
    1 ≤ itemLen it := by
  cases it with
  | lit b => simp [itemLen]
  | mtch l o => simp only [itemLen]; obtain ⟨-, -, -, h3, -⟩ := h; omega

theorem itemsLen_ge_length (s : List Nat) (g : List CItem) :
    ∀ n, ItemsOk s n g → g.length ≤ itemsLen g := by
  induction g with
  | nil => intro n _; simp [itemsLen]
  | cons it g ih =>
    intro n hok
    obtain ⟨h1, h2⟩ := hok
    have := itemLen_pos s n it h1
    have := ih (n + itemLen it) h2
    simp only [List.length_cons, itemsLen]
    omega

theorem encItems_len_ge (g : List CItem) : g.length ≤ (encItems g).length := by
  induction g with
  | nil => simp [encItems]
  | cons it g ih =>
    simp only [encItems, List.length_append, List.length_cons]
    have : 1 ≤ (encItem it).length := by
      cases it with
      | lit b => simp [encItem]
      | mtch l o => simp [encItem, pglz_out_tag]; split <;> simp
    omega

theorem GoodGroups_of (g : List CItem) (hg1 : 1 ≤ g.length) (hg8 : g.length ≤ 8) :
    ∀ gs : List (List CItem), (∀ x ∈ gs, x.length = 8) → GoodGroups (gs ++ [g]) := by
  intro gs
  induction gs with
  | nil => intro _; exact ⟨hg1, hg8⟩
  | cons x xs ih =>
    intro hall
    rcases hl : xs ++ [g] with _ | ⟨y, ys⟩
    · cases xs <;> cases hl
    · have : GoodGroups (x :: y :: ys) = (x.length = 8 ∧ GoodGroups (y :: ys)) := rfl
      simp only [List.cons_append, hl, this]
      refine ⟨hall x (by simp), ?_⟩
      rw [← hl]
      exact ih (fun z hz => hall z (by simp [hz]))

theorem copyFrom_take (s : List Nat) (n off k : Nat) (h1 : off ≤ n) (hk : k ≤ off)
    (h2 : n + k ≤ s.length)
    (heq : ∀ m < k, s.getD (n - off + m) 0 = s.getD (n + m) 0) :
    copyFrom (s.take n) off k = s.take (n + k) := by
  unfold copyFrom
  have hlen : (s.take n).length = n := by
    rw [List.length_take]
    omega
  rw [hlen, List.drop_take, List.take_take,
    show n - (n - off) = off by omega, show min k off = k by omega,
    take_drop_eq_of_getD s n off k h1 (by omega) heq, ← List.take_add]

theorem copyLoop_ok (s : List Nat) :
    ∀ (fuel len off n : Nat), len + 1 ≤ fuel → 1 ≤ off → off ≤ n → n + len ≤ s.length →
      (∀ k < len, s.getD (n - off + k) 0 = s.getD (n + k) 0) →
      copyLoop fuel (s.take n) off len = DR.ok (s.take (n + len)) := by
  intro fuel
  induction fuel with
  | zero =>
    intro len off n hf
    exact absurd hf (by omega)
  | succ fuel ih =>
    intro len off n hf h1 h2 h3 heq
    rw [copyLoop]
    have hlen_take : (s.take n).length = n := by
      rw [List.length_take]
      omega
    by_cases hle : off ≤ len
    · rw [if_pos hle, if_neg (by rw [hlen_take]; omega : ¬ (s.take n).length < off)]
      rw [copyFrom_take s n off off h2 (le_refl off) (by omega)
        (fun m hm => heq m (by omega))]
      have heq' : ∀ m < len - off,
          s.getD (n + off - off * 2 + m) 0 = s.getD (n + off + m) 0 := by
        intro m hm
        have e1 : n + off - off * 2 + m = n - off + m := by omega
        have q1 := heq m (by omega)
        have q2 := heq (off + m) (by omega)
        have e2 : n - off + (off + m) = n + m := by omega
        have e3 : n + (off + m) = n + off + m := by omega
        rw [e2, e3] at q2
        rw [e1, q1]
        exact q2
      have := ih (len - off) (off * 2) (n + off) (by omega) (by omega) (by omega)
        (by omega) heq'
      rw [show n + off + (len - off) = n + len from by omega] at this
      exact this
    · rw [if_neg hle]
      rw [if_neg ?hnot]
      case hnot =>
        rw [hlen_take]
        push_neg
        intro _
        omega
      rw [copyFrom_take s n off len h2 (by omega) (by omega) heq]

theorem tag_short_fields (l o : Nat) (h3 : 3 ≤ l) (h17 : l ≤ 17) (ho : o ≤ 4095) :
    pglz_out_tag l o = [((o &&& 0xf00) >>> 4) ||| (l - 3), o &&& 0xff] ∧
    ((((o &&& 0xf00) >>> 4) ||| (l - 3)) &&& 0x0f) + 3 = l ∧
    (((((o &&& 0xf00) >>> 4) ||| (l - 3)) &&& 0xf0) <<< 4) ||| (o &&& 0xff) = o := by
  have hk : l - 3 < 16 := by omega
  have h2 : o &&& 0xff < 256 := lt_of_le_of_lt Nat.and_le_right (by norm_num)
  refine ⟨?_, ?_, ?_⟩
  · unfold pglz_out_tag
    rw [if_neg (by omega : ¬ 17 < l), Nat.mod_eq_of_lt (tag_t1_lt o (l - 3) hk),
      Nat.mod_eq_of_lt h2]
  · rw [tag_low_nibble o (l - 3) hk]
    omega
  · rw [tag_high_nibble o (l - 3) hk]
    exact tag_recombine o (by omega)

theorem tag_long_fields (l o : Nat) (h18 : 18 ≤ l) (h273 : l ≤ 273) (ho : o ≤ 4095) :
    pglz_out_tag l o = [((o &&& 0xf00) >>> 4) ||| 0x0f, o &&& 0xff, l - 18] ∧
    ((((o &&& 0xf00) >>> 4) ||| 0x0f) &&& 0x0f) + 3 = 18 ∧
    (((((o &&& 0xf00) >>> 4) ||| 0x0f) &&& 0xf0) <<< 4) ||| (o &&& 0xff) = o := by
  have h2 : o &&& 0xff < 256 := lt_of_le_of_lt Nat.and_le_right (by norm_num)
  refine ⟨?_, ?_, ?_⟩
  · unfold pglz_out_tag
    rw [if_pos (by omega : 17 < l), Nat.mod_eq_of_lt (tag_t1_lt o 15 (by norm_num)),
      Nat.mod_eq_of_lt h2, Nat.mod_eq_of_lt (by omega : l - 18 < 256)]
  · rw [tag_low_nibble o 15 (by norm_num)]
  · rw [tag_high_nibble o 15 (by norm_num)]
    exact tag_recombine o (by omega)

theorem decompGo_items (s src : List Nat) (slen rawsize : Nat) (hraw : rawsize = s.length) :
    ∀ (items : List CItem) (fuel sp n ctrl k : Nat),
      items.length ≤ k →
      ItemsOk s n items →
      n + itemsLen items ≤ s.length →
      (∀ i < items.length, (ctrl >>> i) &&& 1 = itemBit (items.getD i (.lit 0))) →
      (∀ j < (encItems items).length, src.getD (sp + j) 0 = (encItems items).getD j 0) →
      sp + (encItems items).length ≤ slen →
      decompGo (items.length + fuel) src slen sp (s.take n) rawsize ctrl k =
        decompGo fuel src slen (sp + (encItems items).length)
          (s.take (n + itemsLen items)) rawsize (ctrl >>> items.length) (k - items.length) := by
  intro items
  induction items with
  | nil =>
    intro fuel sp n ctrl k _ _ _ _ _ _
    simp [encItems, itemsLen]
  | cons it rest ih =>
    intro fuel sp n ctrl k hk hok hlen hctrl hbytes hsp
    obtain ⟨hok1, hok2⟩ := hok
    have hkk : rest.length + 1 ≤ k := by simpa using hk
    have hkne : k ≠ 0 := by omega
    have hilen : itemsLen (it :: rest) = itemLen it + itemsLen rest := rfl
    have hit1 : 1 ≤ itemLen it := itemLen_pos s n it hok1
    have houtlen : (s.take n).length = n := by
      rw [List.length_take]
      omega
    have h2 : (s.take n).length < rawsize := by
      rw [houtlen, hraw]
      omega
    have hsp0 : 1 ≤ (encItems (it :: rest)).length := by
      have := encItems_len_ge (it :: rest)
      simp only [List.length_cons] at this
      omega
    have h1 : sp < slen := by omega
    have hflen : (it :: rest).length + fuel = (rest.length + fuel) + 1 := by
      simp only [List.length_cons]
      omega
    cases it with
    | lit b =>
      have hb0 : src.getD sp 0 = b := by
        have := hbytes 0 (by omega)
        simpa [encItems, encItem] using this
      have hc : ¬ (ctrl &&& 1 = 1) := by
        have := hctrl 0 (by simp)
        simp only [Nat.shiftRight_zero, List.getD_cons_zero, itemBit] at this
        omega
      rw [hflen, decompGo_lit (rest.length + fuel) src slen sp (s.take n) rawsize ctrl k
        hkne h1 h2 hc, hb0]
      obtain ⟨hbv, hnlt⟩ := hok1
      have hout' : s.take n ++ [b] = s.take (n + 1) := by
        rw [take_succ_getD s n hnlt, hbv]
      rw [hout']
      have hok2' : ItemsOk s (n + 1) rest := by
        simpa [itemLen] using hok2
      have hctrl' : ∀ i < rest.length,
          ((ctrl >>> 1) >>> i) &&& 1 = itemBit (rest.getD i (.lit 0)) := by
        intro i hi
        have := hctrl (i + 1) (by simp; omega)
        rw [List.getD_cons_succ] at this
        rw [show i + 1 = 1 + i from by omega, Nat.shiftRight_add] at this
        simpa using this
      have hbytes' : ∀ j < (encItems rest).length,
          src.getD (sp + 1 + j) 0 = (encItems rest).getD j 0 := by
        intro j hj
        have := hbytes (1 + j) (by simp [encItems, encItem]; omega)
        simp only [encItems, encItem, List.cons_append, List.nil_append,
          show (1 : Nat) + j = j + 1 from by omega, List.getD_cons_succ,
          show sp + (j + 1) = sp + 1 + j from by omega] at this
        exact this
      have := ih fuel (sp + 1) (n + 1) (ctrl >>> 1) (k - 1) (by omega) hok2'
        (by simp only [itemLen] at hilen; omega) hctrl' hbytes'
        (by simp only [encItems, encItem, List.cons_append, List.nil_append,
          List.length_cons] at hsp ⊢; omega)
      rw [this]
      have e1 : sp + 1 + (encItems rest).length = sp + (encItems (CItem.lit b :: rest)).length := by
        simp only [encItems, encItem, List.cons_append, List.nil_append, List.length_cons]
        omega
      have e2 : n + 1 + itemsLen rest = n + itemsLen (CItem.lit b :: rest) := by
        simp only [itemsLen, itemLen]
        omega
      have e3 : (ctrl >>> 1) >>> rest.length = ctrl >>> (CItem.lit b :: rest).length := by
        rw [List.length_cons, show rest.length + 1 = 1 + rest.length from by omega,
          Nat.shiftRight_add]
      have e4 : k - 1 - rest.length = k - (CItem.lit b :: rest).length := by
        simp only [List.length_cons]
        omega
      rw [e1, e2, e3, e4]
    | mtch l o =>
      obtain ⟨ho1, ho2, ho3, hl3, hl273, hnl, hmeq⟩ := hok1
      have hc : ctrl &&& 1 = 1 := by
        have := hctrl 0 (by simp)
        simpa [itemBit] using this
      have henc : encItems (CItem.mtch l o :: rest) = pglz_out_tag l o ++ encItems rest := rfl
      have hilen' : itemsLen (CItem.mtch l o :: rest) = l + itemsLen rest := rfl
      have hcopy := copyLoop_ok s (l + 1) l o n (by omega) ho1 ho2 hnl hmeq
      have hminl : l = min l (rawsize - (s.take n).length) := by
        rw [houtlen, hraw]
        omega
      by_cases h17 : l ≤ 17
      · obtain ⟨het, hf1, hf2⟩ := tag_short_fields l o hl3 h17 ho3
        rw [henc, het] at hbytes hsp
        have hb0 : src.getD sp 0 = ((o &&& 0xf00) >>> 4) ||| (l - 3) := by
          have := hbytes 0 (by simp)
          simpa using this
        have hb1 : src.getD (sp + 1) 0 = o &&& 0xff := by
          have := hbytes 1 (by simp)
          simpa using this
        rw [hflen, decompGo_tag (rest.length + fuel) src slen sp (s.take n) rawsize ctrl k
          (((o &&& 0xf00) >>> 4) ||| (l - 3)) l o l (sp + 2) l hkne h1 h2 hc hb0.symm
          hf1.symm (by rw [hb1]; exact hf2.symm)
          (by rw [if_neg (by omega : ¬ l = 18)])
          (by rw [if_neg (by omega : ¬ l = 18)]) hminl, hcopy]
        show decompGo (rest.length + fuel) src slen (sp + 2) (s.take (n + l)) rawsize
          (ctrl >>> 1) (k - 1) = _
        have hctrl' : ∀ i < rest.length,
            ((ctrl >>> 1) >>> i) &&& 1 = itemBit (rest.getD i (.lit 0)) := by
          intro i hi
          have := hctrl (i + 1) (by simp; omega)
          rw [List.getD_cons_succ] at this
          rw [show i + 1 = 1 + i from by omega, Nat.shiftRight_add] at this
          simpa using this
        have hbytes' : ∀ j < (encItems rest).length,
            src.getD (sp + 2 + j) 0 = (encItems rest).getD j 0 := by
          intro j hj
          have := hbytes (2 + j) (by simp; omega)
          simp only [List.cons_append, List.nil_append,
            show (2 : Nat) + j = j + 1 + 1 from by omega, List.getD_cons_succ,
            show sp + (j + 1 + 1) = sp + 2 + j from by omega] at this
          exact this
        have := ih fuel (sp + 2) (n + l) (ctrl >>> 1) (k - 1) (by omega)
          (by simpa [itemLen] using hok2)
          (by simp only [itemsLen, itemLen] at hlen ⊢; omega) hctrl' hbytes'
          (by simp only [List.cons_append, List.nil_append, List.length_cons] at hsp ⊢; omega)
        rw [this]
        have e1 : sp + 2 + (encItems rest).length
            = sp + (encItems (CItem.mtch l o :: rest)).length := by
          rw [henc, het]
          simp only [List.cons_append, List.nil_append, List.length_cons]
          omega
        have e2 : n + l + itemsLen rest = n + itemsLen (CItem.mtch l o :: rest) := by
          rw [hilen']
          omega
        have e3 : (ctrl >>> 1) >>> rest.length = ctrl >>> (CItem.mtch l o :: rest).length := by
          rw [List.length_cons, show rest.length + 1 = 1 + rest.length from by omega,
            Nat.shiftRight_add]
        have e4 : k - 1 - rest.length = k - (CItem.mtch l o :: rest).length := by
          simp only [List.length_cons]
          omega
        rw [e1, e2, e3, e4]
      · obtain ⟨het, hf1, hf2⟩ := tag_long_fields l o (by omega) hl273 ho3
        rw [henc, het] at hbytes hsp
        have hb0 : src.getD sp 0 = ((o &&& 0xf00) >>> 4) ||| 0x0f := by
          have := hbytes 0 (by simp)
          simpa using this
        have hb1 : src.getD (sp + 1) 0 = o &&& 0xff := by
          have := hbytes 1 (by simp)
          simpa using this
        have hb2 : src.getD (sp + 2) 0 = l - 18 := by
          have := hbytes 2 (by simp)
          simpa using this
        rw [hflen, decompGo_tag (rest.length + fuel) src slen sp (s.take n) rawsize ctrl k
          (((o &&& 0xf00) >>> 4) ||| 0x0f) 18 o l (sp + 3) l hkne h1 h2 hc hb0.symm
          hf1.symm (by rw [hb1]; exact hf2.symm)
          (by rw [if_pos rfl, hb2]; omega)
          (by rw [if_pos rfl]) hminl, hcopy]
        show decompGo (rest.length + fuel) src slen (sp + 3) (s.take (n + l)) rawsize
          (ctrl >>> 1) (k - 1) = _
        have hctrl' : ∀ i < rest.length,
            ((ctrl >>> 1) >>> i) &&& 1 = itemBit (rest.getD i (.lit 0)) := by
          intro i hi
          have := hctrl (i + 1) (by simp; omega)
          rw [List.getD_cons_succ] at this
          rw [show i + 1 = 1 + i from by omega, Nat.shiftRight_add] at this
          simpa using this
        have hbytes' : ∀ j < (encItems rest).length,
            src.getD (sp + 3 + j) 0 = (encItems rest).getD j 0 := by
          intro j hj
          have := hbytes (3 + j) (by simp; omega)
          simp only [List.cons_append, List.nil_append,
            show (3 : Nat) + j = j + 1 + 1 + 1 from by omega, List.getD_cons_succ,
            show sp + (j + 1 + 1 + 1) = sp + 3 + j from by omega] at this
          exact this
        have := ih fuel (sp + 3) (n + l) (ctrl >>> 1) (k - 1) (by omega)
          (by simpa [itemLen] using hok2)
          (by simp only [itemsLen, itemLen] at hlen ⊢; omega) hctrl' hbytes'
          (by simp only [List.cons_append, List.nil_append, List.length_cons] at hsp ⊢; omega)
        rw [this]
        have e1 : sp + 3 + (encItems rest).length
            = sp + (encItems (CItem.mtch l o :: rest)).length := by
          rw [henc, het]
          simp only [List.cons_append, List.nil_append, List.length_cons]
          omega
        have e2 : n + l + itemsLen rest = n + itemsLen (CItem.mtch l o :: rest) := by
          rw [hilen']
          omega
        have e3 : (ctrl >>> 1) >>> rest.length = ctrl >>> (CItem.mtch l o :: rest).length := by
          rw [List.length_cons, show rest.length + 1 = 1 + rest.length from by omega,
            Nat.shiftRight_add]
        have e4 : k - 1 - rest.length = k - (CItem.mtch l o :: rest).length := by
          simp only [List.length_cons]
          omega
        rw [e1, e2, e3, e4]

theorem decompGo_groups (s src : List Nat) (slen : Nat) :
    ∀ (gs : List (List CItem)) (fuel sp n ctrl : Nat),
      GoodGroups gs →
      GroupsOk s n gs →
      n + groupsLen gs = s.length →
      sp + (encGroups gs).length = slen →
      (∀ j < (encGroups gs).length, src.getD (sp + j) 0 = (encGroups gs).getD j 0) →
      (encGroups gs).length + 2 ≤ fuel →
      decompGo fuel src slen sp (s.take n) s.length ctrl 0 = DR.ok (s, slen) := by
  intro gs
  induction gs with
  | nil =>
    intro fuel sp n ctrl hGood
    exact absurd hGood id
  | cons g gs ih =>
    intro fuel sp n ctrl hGood hok htot hsp hbytes hfuel
    have hencg : encGroups (g :: gs) = ctrlOf g :: (encItems g ++ encGroups gs) := rfl
    have hglen1 : 1 ≤ g.length := by
      cases gs with
      | nil => exact hGood.1
      | cons g2 gs2 => rw [hGood.1]; norm_num
    have hglen8 : g.length ≤ 8 := by
      cases gs with
      | nil => exact hGood.2
      | cons g2 gs2 => rw [hGood.1]
    have hitems1 : 1 ≤ itemsLen g :=
      le_trans hglen1 (itemsLen_ge_length s g n hok.1)
    have hnlen : n + itemsLen g ≤ s.length := by
      have hg2 : 0 ≤ groupsLen gs := Nat.zero_le _
      simp only [groupsLen] at htot
      omega
    have houtlen : (s.take n).length = n := by
      rw [List.length_take]
      omega
    have henclen : (encGroups (g :: gs)).length
        = 1 + (encItems g).length + (encGroups gs).length := by
      rw [hencg]
      simp only [List.length_cons, List.length_append]
      omega
    obtain ⟨f1, rfl⟩ : ∃ f1, fuel = f1 + 1 := ⟨fuel - 1, by omega⟩
    rw [decompGo_read_ctrl f1 src slen sp (s.take n) s.length ctrl
      (by omega) (by rw [houtlen]; omega)]
    have hctrlbyte : src.getD sp 0 = ctrlOf g := by
      have := hbytes 0 (by omega)
      rw [hencg] at this
      simpa using this
    rw [hctrlbyte]
    obtain ⟨f2, rfl⟩ : ∃ f2, f1 = g.length + f2 := by
      have := encItems_len_ge g
      exact ⟨f1 - g.length, by omega⟩
    have hbytesg : ∀ j < (encItems g).length,
        src.getD (sp + 1 + j) 0 = (encItems g).getD j 0 := by
      intro j hj
      have := hbytes (1 + j) (by omega)
      rw [hencg, show (1 : Nat) + j = j + 1 from by omega, List.getD_cons_succ,
        show sp + (j + 1) = sp + 1 + j from by omega] at this
      rw [this, List.getD_append]
      exact hj
    have hstep := decompGo_items s src slen s.length rfl g f2 (sp + 1) n (ctrlOf g) 8
      hglen8 hok.1 hnlen (ctrlOf_bit g) hbytesg (by omega)
    rw [hstep]
    cases gs with
    | nil =>
      have he0 : (encGroups ([] : List (List CItem))).length = 0 := rfl
      have hg0 : groupsLen ([] : List (List CItem)) = 0 := rfl
      have hgl : groupsLen [g] = itemsLen g + groupsLen [] := rfl
      have hfge := encItems_len_ge g
      have hspend : sp + 1 + (encItems g).length = slen := by omega
      have hnend : n + itemsLen g = s.length := by omega
      rw [hspend, hnend, List.take_length]
      by_cases hj8 : g.length = 8
      · rw [hj8]
        obtain ⟨f3, rfl⟩ : ∃ f3, f2 = f3 + 1 := ⟨f2 - 1, by omega⟩
        rw [decompGo_stop f3 src slen slen s s.length (ctrlOf g >>> 8) (by omega)]
      · obtain ⟨f3, rfl⟩ : ∃ f3, f2 = f3 + 1 + 1 := ⟨f2 - 2, by omega⟩
        rw [decompGo_break (f3 + 1) src slen slen s s.length (ctrlOf g >>> g.length)
          (8 - g.length) (by omega) (by omega)]
        rw [decompGo_stop f3 src slen slen s s.length (ctrlOf g >>> g.length) (by omega)]
    | cons g2 gs2 =>
      have hj8 : g.length = 8 := hGood.1
      rw [hj8]
      have hbytes2 : ∀ j < (encGroups (g2 :: gs2)).length,
          src.getD (sp + 1 + (encItems g).length + j) 0
            = (encGroups (g2 :: gs2)).getD j 0 := by
        intro j hj
        have := hbytes (1 + (encItems g).length + j) (by omega)
        rw [hencg, show (1 : Nat) + (encItems g).length + j
            = (encItems g).length + j + 1 from by omega, List.getD_cons_succ,
          List.getD_append_right _ _ _ _ (by omega),
          show (encItems g).length + j - (encItems g).length = j from by omega,
          show sp + ((encItems g).length + j + 1)
            = sp + 1 + (encItems g).length + j from by omega] at this
        exact this
      have := ih f2 (sp + 1 + (encItems g).length) (n + itemsLen g) (ctrlOf g >>> 8)
        hGood.2 hok.2 (by simp only [groupsLen] at htot ⊢; omega)
        (by simp only [henclen] at hsp; omega) hbytes2
        (by have hfge := encItems_len_ge g; simp only [henclen] at hfuel; omega)
      rw [show 8 - 8 = 0 from rfl]
      exact this

theorem histAdd_entry0 (hn hidx : Nat) (h : Hist) (s : List Nat) (p mask : Nat)
    (hhn : hn ≠ 0) :
    (pglz_hist_add hn hidx h s p mask).2.2.entries 0 = h.entries 0 := by
  rw [histAdd_unfold]
  show (if (0 : Nat) = hn then (⟨h.start hidx, hidx, p⟩ : PGLZ_HistEntry) else h.entries 0)
      = h.entries 0
  rw [if_neg (by omega : ¬ (0 : Nat) = hn)]

theorem histAdd_next_idx_le (hn hidx : Nat) (h : Hist) (s : List Nat) (p mask : Nat) :
    (pglz_hist_add hn hidx h s p mask).2.1 ≤ mask := by
  show pglz_hist_next_idx hidx s p mask ≤ mask
  exact Nat.and_le_right

theorem histAddMany_HistInvW (s : List Nat) (mask : Nat) (hm : mask ≤ 8191) :
    ∀ (count p hn hidx : Nat) (h : Hist),
      HistInvW h hn p → hidx ≤ mask → (h.entries 0).pos = s.length →
      p + count ≤ s.length →
      HistInvW (histAddMany s mask count p hn hidx h).2.2
          (histAddMany s mask count p hn hidx h).1 (p + count) ∧
        (histAddMany s mask count p hn hidx h).2.1 ≤ mask ∧
        ((histAddMany s mask count p hn hidx h).2.2.entries 0).pos = s.length := by
  intro count
  induction count with
  | zero =>
    intro p hn hidx h hinv hx h0 hc
    exact ⟨by simpa using hinv, hx, h0⟩
  | succ count ih =>
    intro p hn hidx h hinv hx h0 hc
    have hstep : histAddMany s mask (count + 1) p hn hidx h =
        histAddMany s mask count (p + 1) (pglz_hist_add hn hidx h s p mask).1
          (pglz_hist_add hn hidx h s p mask).2.1 (pglz_hist_add hn hidx h s p mask).2.2 := rfl
    rw [hstep]
    have hn0 : hn ≠ 0 := by
      have := hinv.1
      omega
    have hinv' := histAdd_HistInvW h hn p hidx mask s hinv (by omega)
      (by rw [h0]; omega)
    have h0' : ((pglz_hist_add hn hidx h s p mask).2.2.entries 0).pos = s.length := by
      rw [histAdd_entry0 hn hidx h s p mask hn0, h0]
    have := ih (p + 1) (pglz_hist_add hn hidx h s p mask).1
      (pglz_hist_add hn hidx h s p mask).2.1 (pglz_hist_add hn hidx h s p mask).2.2
      hinv' (histAdd_next_idx_le hn hidx h s p mask) h0' (by omega)
    rw [show p + (count + 1) = p + 1 + count from by omega]
    exact this

theorem find_match_entries (h : Hist) (s : List Nat) (hidx ip srcend gm gd : Nat) :
    (pglz_find_match h s hidx ip srcend gm gd).1.entries = h.entries := by
  rw [find_match_unfold]
  by_cases h1 : h.start hidx = 0
  · rw [if_pos h1]
  · rw [if_neg h1]
    by_cases h2 : (h.entries (h.start hidx)).hist_idx ≠ hidx
    · rw [if_pos h2]
    · rw [if_neg h2]
      split <;> rfl

theorem ItemsOk_le (s : List Nat) :
    ∀ (g : List CItem) (n : Nat), ItemsOk s n g → g ≠ [] → n + itemsLen g ≤ s.length := by
  intro g
  induction g with
  | nil => intro n _ hne; exact absurd rfl hne
  | cons it rest ih =>
    intro n hok _
    obtain ⟨h1, h2⟩ := hok
    have hil : itemsLen (it :: rest) = itemLen it + itemsLen rest := rfl
    have hone : n + itemLen it ≤ s.length := by
      cases it with
      | lit b => obtain ⟨-, hlt⟩ := h1; simp only [itemLen]; omega
      | mtch l o =>
        obtain ⟨-, -, -, -, -, hnl, -⟩ := h1
        simp only [itemLen]
        omega
    by_cases hrest : rest = []
    · subst hrest
      simp only [hil, itemsLen]
      omega
    · have := ih (n + itemLen it) h2 hrest
      omega

theorem refresh_step (s : List Nat) (p : Nat) (out : List Nat) (ctrlIdx : Option Nat)
    (ctrlByte ctrlPos : Nat) (gsDone : List (List CItem)) (gcur : List CItem)
    (hA : (out = [] ∧ ctrlIdx = none ∧ ctrlByte = 0 ∧ ctrlPos = 0 ∧ gsDone = [] ∧
            gcur = [] ∧ p = 0) ∨
          (out = encGroups gsDone ++ [0] ++ encItems gcur ∧
           ctrlIdx = some (encGroups gsDone).length ∧
           ctrlByte = ctrlOf gcur ∧ ctrlPos = 2 ^ gcur.length % 256 ∧
           1 ≤ gcur.length ∧ gcur.length ≤ 8))
    (hall : ∀ x ∈ gsDone, x.length = 8)
    (hgok : GroupsOk s 0 gsDone) (hiok : ItemsOk s (groupsLen gsDone) gcur)
    (hlen : groupsLen gsDone + itemsLen gcur = p) :
    ∃ (gsDone' : List (List CItem)) (gcur' : List CItem),
      refreshCtrl out ctrlIdx ctrlByte ctrlPos =
        (encGroups gsDone' ++ [0] ++ encItems gcur',
          some (encGroups gsDone').length, ctrlOf gcur', 2 ^ gcur'.length % 256) ∧
      gcur'.length < 8 ∧
      (∀ x ∈ gsDone', x.length = 8) ∧
      GroupsOk s 0 gsDone' ∧ ItemsOk s (groupsLen gsDone') gcur' ∧
      groupsLen gsDone' + itemsLen gcur' = p := by
  rcases hA with ⟨ho, hci, hcb, hcp, hgd, hgc, hp⟩ | ⟨ho, hci, hcb, hcp, hg1, hg8⟩
  · subst ho hci hcb hcp hgd hgc hp
    refine ⟨[], [], ?_, by norm_num, by simp, trivial, trivial, rfl⟩
    unfold refreshCtrl
    rw [if_pos (by decide : (0 : Nat) &&& 0xff = 0)]
    rfl
  · by_cases h8 : gcur.length = 8
    · refine ⟨gsDone ++ [gcur], [], ?_, by norm_num, ?_, ?_, ?_, ?_⟩
      · unfold refreshCtrl
        rw [hcp, if_pos (by rw [(pow_mod_and_255 gcur.length (by omega)).1,
            (pow_mod_and_255 gcur.length (by omega)).2.mpr h8])]
        have hpatch : patchCtrl out ctrlIdx ctrlByte
            = encGroups (gsDone ++ [gcur]) := by
          rw [ho, hci, hcb, List.append_assoc]
          show (encGroups gsDone ++ (0 :: encItems gcur)).set (encGroups gsDone).length
            (ctrlOf gcur) = _
          rw [set_append_length, encGroups_append]
          simp [encGroups, encGroup]
        rw [hpatch]
        simp [encItems, ctrlOf]
      · intro x hx
        rcases List.mem_append.1 hx with hx1 | hx2
        · exact hall x hx1
        · rw [List.mem_singleton.1 hx2, h8]
      · rw [GroupsOk_append]
        refine ⟨hgok, ?_, trivial⟩
        rw [Nat.zero_add]
        exact hiok
      · trivial
      · rw [groupsLen_append]
        show groupsLen gsDone + (itemsLen gcur + groupsLen []) + itemsLen [] = p
        show groupsLen gsDone + (itemsLen gcur + 0) + 0 = p
        omega
    · refine ⟨gsDone, gcur, ?_, by omega, hall, hgok, hiok, hlen⟩
      unfold refreshCtrl
      have hnz : ¬ (ctrlPos &&& 0xff = 0) := by
        rw [hcp, (pow_mod_and_255 gcur.length (by omega)).1]
        intro hz
        exact h8 ((pow_mod_and_255 gcur.length (by omega)).2.mp hz)
      rw [if_neg hnz, ho, hci, hcb, hcp]

theorem tailLoop_extract (P : CParams) (s : List Nat) (hs : IsBytes s) :
    ∀ (rest : List Nat) (p : Nat) (out : List Nat) (ctrlIdx : Option Nat)
      (ctrlByte ctrlPos : Nat) (found : Bool) (c : List Nat)
      (gsDone : List (List CItem)) (gcur : List CItem),
      rest = s.drop p →
      ((out = [] ∧ ctrlIdx = none ∧ ctrlByte = 0 ∧ ctrlPos = 0 ∧ gsDone = [] ∧
          gcur = [] ∧ p = 0) ∨
        (out = encGroups gsDone ++ [0] ++ encItems gcur ∧
         ctrlIdx = some (encGroups gsDone).length ∧
         ctrlByte = ctrlOf gcur ∧ ctrlPos = 2 ^ gcur.length % 256 ∧
         1 ≤ gcur.length ∧ gcur.length ≤ 8)) →
      (∀ x ∈ gsDone, x.length = 8) →
      GroupsOk s 0 gsDone → ItemsOk s (groupsLen gsDone) gcur →
      groupsLen gsDone + itemsLen gcur = p →
      (gcur = [] → rest ≠ []) →
      tailLoop P rest out ctrlIdx ctrlByte ctrlPos found = some c →
      ∃ gs : List (List CItem), c = encGroups gs ∧ GoodGroups gs ∧ GroupsOk s 0 gs ∧
        groupsLen gs = s.length := by
  intro rest
  induction rest with
  | nil =>
    intro p out ctrlIdx ctrlByte ctrlPos found c gsDone gcur hrest hA hall hgok hiok hlen
      hne heq
    have hgcne : gcur ≠ [] := fun hz => (hne hz) rfl
    rcases hA with ⟨-, -, -, -, -, hgc, -⟩ | ⟨ho, hci, hcb, hcp, hg1, hg8⟩
    · exact absurd hgc hgcne
    · have hple : p ≤ s.length := by
        have := ItemsOk_le s gcur (groupsLen gsDone) hiok hgcne
        omega
      have hpge : s.length ≤ p := by
        have hdl := congrArg List.length hrest
        rw [List.length_drop] at hdl
        simp only [List.length_nil] at hdl
        omega
      rw [tailLoop] at heq
      by_cases hb : P.result_max ≤ (patchCtrl out ctrlIdx ctrlByte).length
      · rw [if_pos hb] at heq
        cases heq
      · rw [if_neg hb] at heq
        cases heq
        refine ⟨gsDone ++ [gcur], ?_, GoodGroups_of gcur hg1 hg8 gsDone hall, ?_, ?_⟩
        · rw [ho, hci, hcb, List.append_assoc]
          show (encGroups gsDone ++ (0 :: encItems gcur)).set (encGroups gsDone).length
            (ctrlOf gcur) = _
          rw [set_append_length, encGroups_append]
          simp [encGroups, encGroup]
        · rw [GroupsOk_append]
          refine ⟨hgok, ?_, trivial⟩
          rw [Nat.zero_add]
          exact hiok
        · rw [groupsLen_append]
          have e1 : groupsLen [gcur] = itemsLen gcur + 0 := rfl
          omega
  | cons b rest' ihr =>
    intro p out ctrlIdx ctrlByte ctrlPos found c gsDone gcur hrest hA hall hgok hiok hlen
      hne heq
    obtain ⟨hplt, hbv, hrest'⟩ := drop_cons_inv s rest' p b hrest.symm
    rw [tailLoop] at heq
    by_cases hb1 : P.result_max ≤ out.length
    · rw [if_pos hb1] at heq
      cases heq
    · rw [if_neg hb1] at heq
      by_cases hf : found = false ∧ P.first_success_by ≤ (out.length : Int)
      · rw [if_pos hf] at heq
        cases heq
      · rw [if_neg hf] at heq
        obtain ⟨gsD, gc, hq, h8, hall', hgok', hiok', hlen'⟩ :=
          refresh_step s p out ctrlIdx ctrlByte ctrlPos gsDone gcur hA hall hgok hiok hlen
        rw [hq] at heq
        dsimp only at heq
        have hbm : b % 256 = b := Nat.mod_eq_of_lt (by rw [← hbv]; exact IsBytes_getD s hs p)
        rw [hbm] at heq
        rw [show (encGroups gsD ++ [0] ++ encItems gc) ++ [b]
            = encGroups gsD ++ [0] ++ encItems (gc ++ [CItem.lit b]) from by
          rw [encItems_append]
          simp [encItems, encItem]] at heq
        rw [show ctrlOf gc = ctrlOf (gc ++ [CItem.lit b]) from by
          rw [ctrlOf_append]
          simp [ctrlOf, itemBit]] at heq
        rw [show ((2 ^ gc.length % 256) <<< 1) &&& 0xff
            = 2 ^ (gc ++ [CItem.lit b]).length % 256 from by
          rw [pow_shift_mask gc.length (by omega)]
          simp] at heq
        exact ihr (p + 1) _ _ _ _ found c gsD (gc ++ [CItem.lit b]) hrest'
          (Or.inr ⟨rfl, rfl, rfl, rfl, by simp, by simp; omega⟩) hall' hgok'
          (by
            rw [ItemsOk_append]
            refine ⟨hiok', ?_, trivial⟩
            rw [hlen']
            exact ⟨hbv.symm, hplt⟩)
          (by
            rw [itemsLen_append]
            have e1 : itemsLen [CItem.lit b] = 1 := rfl
            omega)
          (by simp) heq

theorem mainLoop_extract (P : CParams) (hs : IsBytes P.s)
    (hcsend : P.csend = P.s.length - 4) (hmask : P.mask ≤ 8191) :
    ∀ (fuel p : Nat) (out : List Nat) (ctrlIdx : Option Nat) (ctrlByte ctrlPos : Nat)
      (histNext hidx : Nat) (h : Hist) (found : Bool) (c : List Nat)
      (gsDone : List (List CItem)) (gcur : List CItem),
      HistInvW h histNext p →
      hidx ≤ P.mask →
      (h.entries 0).pos = P.s.length →
      ((out = [] ∧ ctrlIdx = none ∧ ctrlByte = 0 ∧ ctrlPos = 0 ∧ gsDone = [] ∧
          gcur = [] ∧ p = 0) ∨
        (out = encGroups gsDone ++ [0] ++ encItems gcur ∧
         ctrlIdx = some (encGroups gsDone).length ∧
         ctrlByte = ctrlOf gcur ∧ ctrlPos = 2 ^ gcur.length % 256 ∧
         1 ≤ gcur.length ∧ gcur.length ≤ 8)) →
      (∀ x ∈ gsDone, x.length = 8) →
      GroupsOk P.s 0 gsDone → ItemsOk P.s (groupsLen gsDone) gcur →
      groupsLen gsDone + itemsLen gcur = p →
      (gcur = [] → p < P.s.length) →
      compressMainLoop P fuel p out ctrlIdx ctrlByte ctrlPos histNext hidx h found = some c →
      ∃ gs : List (List CItem), c = encGroups gs ∧ GoodGroups gs ∧ GroupsOk P.s 0 gs ∧
        groupsLen gs = P.s.length := by
  intro fuel
  induction fuel with
  | zero =>
    intro p out ctrlIdx ctrlByte ctrlPos histNext hidx h found c gsDone gcur
      _ _ _ _ _ _ _ _ _ heq
    cases heq
  | succ n ih =>
    intro p out ctrlIdx ctrlByte ctrlPos histNext hidx h found c gsDone gcur
      hinv hx hsent hA hall hgok hiok hlen hne heq
    rw [compressMainLoop] at heq
    by_cases hp : p < P.csend
    · rw [if_pos hp] at heq
      by_cases hb : P.result_max ≤ out.length
      · rw [if_pos hb] at heq
        cases heq
      · rw [if_neg hb] at heq
        by_cases hf : found = false ∧ P.first_success_by ≤ (out.length : Int)
        · rw [if_pos hf] at heq
          cases heq
        · rw [if_neg hf] at heq
          obtain ⟨gsD, gc, hq, h8, hall', hgok', hiok', hlen'⟩ :=
            refresh_step P.s p out ctrlIdx ctrlByte ctrlPos gsDone gcur hA hall hgok hiok hlen
          have hplt : p < P.s.length := by omega
          rcases hfm : pglz_find_match h P.s hidx p P.csend P.good_match P.good_drop
            with ⟨h1, r⟩
          rw [hfm] at heq
          have hinv1 : HistInvW h1 histNext p := find_match_HistInvW h h1 histNext p hidx
            P.csend P.good_match P.good_drop P.s r hinv hfm
          have hsent1 : (h1.entries 0).pos = P.s.length := by
            have he := find_match_entries h P.s hidx p P.csend P.good_match P.good_drop
            rw [hfm] at he
            dsimp only at he
            rw [he]
            exact hsent
          cases r with
          | none =>
            rw [hq] at heq
            dsimp only at heq
            have hbm : P.s.getD p 0 % 256 = P.s.getD p 0 :=
              Nat.mod_eq_of_lt (IsBytes_getD P.s hs p)
            rw [hbm] at heq
            rw [show (encGroups gsD ++ [0] ++ encItems gc) ++ [P.s.getD p 0]
                = encGroups gsD ++ [0] ++ encItems (gc ++ [CItem.lit (P.s.getD p 0)]) from by
              rw [encItems_append]
              simp [encItems, encItem]] at heq
            rw [show ctrlOf gc = ctrlOf (gc ++ [CItem.lit (P.s.getD p 0)]) from by
              rw [ctrlOf_append]
              simp [ctrlOf, itemBit]] at heq
            rw [show ((2 ^ gc.length % 256) <<< 1) &&& 0xff
                = 2 ^ (gc ++ [CItem.lit (P.s.getD p 0)]).length % 256 from by
              rw [pow_shift_mask gc.length (by omega)]
              simp] at heq
            have hn0 : histNext ≠ 0 := by
              have := hinv1.1
              omega
            exact ih (p + 1) _ _ _ _ (pglz_hist_add histNext hidx h1 P.s p P.mask).1
              (pglz_hist_add histNext hidx h1 P.s p P.mask).2.1
              (pglz_hist_add histNext hidx h1 P.s p P.mask).2.2 found c gsD
              (gc ++ [CItem.lit (P.s.getD p 0)])
              (histAdd_HistInvW h1 histNext p hidx P.mask P.s hinv1 (by omega)
                (by rw [hsent1]; omega))
              (histAdd_next_idx_le histNext hidx h1 P.s p P.mask)
              (by rw [histAdd_entry0 histNext hidx h1 P.s p P.mask hn0]; exact hsent1)
              (Or.inr ⟨rfl, rfl, rfl, rfl, by simp, by simp; omega⟩) hall' hgok'
              (by
                rw [ItemsOk_append]
                refine ⟨hiok', ?_, trivial⟩
                rw [hlen']
                exact ⟨rfl, hplt⟩)
              (by
                rw [itemsLen_append]
                have e1 : itemsLen [CItem.lit (P.s.getD p 0)] = 1 := rfl
                omega)
              (by simp) heq
          | some lo =>
            rcases lo with ⟨len, off⟩
            rw [hq] at heq
            dsimp only at heq
            have hb4 := find_match_bounds h h1 histNext p hidx P.csend P.good_match
              P.good_drop len off P.s hinv (by omega) hfm
            have hspec := find_match_spec h h1 histNext p hidx P.csend P.good_match
              P.good_drop len off P.s hs hinv (by omega) hfm
            have hplen : p + len ≤ P.s.length := by
              obtain ⟨-, -, -, hlc, -, -⟩ := hspec
              omega
            have hm256 : 2 ^ gc.length % 256 = 2 ^ gc.length := by
              have h27 : (2 : Nat) ^ gc.length ≤ 128 := by
                calc (2 : Nat) ^ gc.length ≤ 2 ^ 7 :=
                      Nat.pow_le_pow_right (by norm_num) (by omega)
                  _ = 128 := by norm_num
              exact Nat.mod_eq_of_lt (by omega)
            rw [show (encGroups gsD ++ [0] ++ encItems gc) ++ pglz_out_tag len off
                = encGroups gsD ++ [0] ++ encItems (gc ++ [CItem.mtch len off]) from by
              rw [encItems_append]
              simp [encItems, encItem]] at heq
            rw [show ctrlOf gc ||| 2 ^ gc.length % 256
                = ctrlOf (gc ++ [CItem.mtch len off]) from by
              rw [hm256, or_two_pow_eq_add (ctrlOf gc) gc.length (by omega) (ctrlOf_lt gc),
                ctrlOf_append]
              simp [ctrlOf, itemBit]] at heq
            rw [show ((2 ^ gc.length % 256) <<< 1) &&& 0xff
                = 2 ^ (gc ++ [CItem.mtch len off]).length % 256 from by
              rw [pow_shift_mask gc.length (by omega)]
              simp] at heq
            have hmany := histAddMany_HistInvW P.s P.mask hmask len p histNext hidx h1
              hinv1 hx hsent1 hplen
            exact ih (p + len) _ _ _ _ (histAddMany P.s P.mask len p histNext hidx h1).1
              (histAddMany P.s P.mask len p histNext hidx h1).2.1
              (histAddMany P.s P.mask len p histNext hidx h1).2.2 true c gsD
              (gc ++ [CItem.mtch len off])
              hmany.1 hmany.2.1 hmany.2.2
              (Or.inr ⟨rfl, rfl, rfl, rfl, by simp, by simp; omega⟩) hall' hgok'
              (by
                rw [ItemsOk_append]
                refine ⟨hiok', ?_, trivial⟩
                rw [hlen']
                obtain ⟨ha1, ha2, ha3, ha4, ha5, ha6⟩ := hspec
                obtain ⟨-, hb2, -, -⟩ := hb4
                exact ⟨ha1, ha2, by omega, ha3, ha5, by omega, ha6⟩)
              (by
                rw [itemsLen_append]
                have e1 : itemsLen [CItem.mtch len off] = len + 0 := rfl
                omega)
              (by simp) heq
    · rw [if_neg hp] at heq
      exact tailLoop_extract P P.s hs (P.s.drop p) p out ctrlIdx ctrlByte ctrlPos found c
        gsDone gcur rfl hA hall hgok hiok hlen
        (fun hz => by
          have := hne hz
          intro hd
          have hdl := congrArg List.length hd
          rw [List.length_drop] at hdl
          simp only [List.length_nil] at hdl
          omega) heq

theorem default_unfold (s : List Nat) :
    pglz_compress s strategy_default_data =
      if 32 ≤ s.length ∧ s.length ≤ 2147483647 then
        compressMainLoop ⟨s, s.length - 4,
            if 21474836 < s.length then (s.length / 100) * 75 else (s.length * 75) / 100,
            1024, 128, 12,
            (if s.length < 128 then 512 else if s.length < 256 then 1024
              else if s.length < 512 then 2048 else if s.length < 1024 then 4096
              else 8192) - 1⟩
          (s.length + 1) 0 [] none 0 0 1
          (pglz_hist_idx s 0
            ((if s.length < 128 then 512 else if s.length < 256 then 1024
              else if s.length < 512 then 2048 else if s.length < 1024 then 4096
              else 8192) - 1))
          (initHist s.length) false
      else none := by
  by_cases hg : 32 ≤ s.length ∧ s.length ≤ 2147483647
  · rw [if_pos hg]
    unfold pglz_compress
    rw [if_neg ?hrej]
    case hrej =>
      simp only [strategy_default_data]
      push_neg
      refine ⟨by norm_num, by exact_mod_cast hg.1, by exact_mod_cast hg.2⟩
    simp only [strategy_default_data]
    norm_num [show Int.toNat 25 = 25 from rfl, show Int.toNat 128 = 128 from rfl,
      show Int.toNat 10 = 10 from rfl]
  · rw [if_neg hg]
    unfold pglz_compress
    rw [if_pos ?hrej2]
    case hrej2 =>
      simp only [strategy_default_data]
      push_neg at hg
      by_cases h32 : 32 ≤ s.length
      · right
        right
        have := hg h32
        exact_mod_cast this
      · right
        left
        exact_mod_cast Nat.lt_of_not_le h32

/-- Claim C1: whenever `pglz_compress` under the DEFAULT strategy succeeds on a
byte string `s` and returns the compressed stream `c`, the hacked decompressor
run on `c` with `rawsize = |s|` and `check_complete` terminates normally,
returns `|s|`, and writes back exactly the bytes of `s`. -/
theorem c1_roundtrip (s c : List Nat) (hs : IsBytes s)
    (hc : pglz_compress s strategy_default_data = some c) :
    pglz_decompress_hacked c c.length s.length true = DR.ok ((s.length : Int), s) := by
  rw [default_unfold] at hc
  by_cases hg : 32 ≤ s.length ∧ s.length ≤ 2147483647
  · rw [if_pos hg] at hc
    have hmask : ((if s.length < 128 then 512 else if s.length < 256 then 1024
        else if s.length < 512 then 2048 else if s.length < 1024 then 4096
        else 8192) - 1 : Nat) ≤ 8191 := by
      have hX : (if s.length < 128 then (512 : Nat) else if s.length < 256 then 1024
          else if s.length < 512 then 2048 else if s.length < 1024 then 4096
          else 8192) ≤ 8192 := by
        split
        · norm_num
        split
        · norm_num
        split
        · norm_num
        split <;> norm_num
      omega
    obtain ⟨gs, hcgs, hGood, hGok, hgslen⟩ :=
      mainLoop_extract ⟨s, s.length - 4,
          if 21474836 < s.length then (s.length / 100) * 75 else (s.length * 75) / 100,
          1024, 128, 12,
          (if s.length < 128 then 512 else if s.length < 256 then 1024
            else if s.length < 512 then 2048 else if s.length < 1024 then 4096
            else 8192) - 1⟩
        hs rfl hmask (s.length + 1) 0 [] none 0 0 1
        (pglz_hist_idx s 0
          ((if s.length < 128 then 512 else if s.length < 256 then 1024
            else if s.length < 512 then 2048 else if s.length < 1024 then 4096
            else 8192) - 1))
        (initHist s.length) false c [] []
        (initHist_HistInvW s.length) Nat.and_le_right rfl
        (Or.inl ⟨rfl, rfl, rfl, rfl, rfl, rfl, rfl⟩)
        (by simp) trivial trivial rfl
        (fun _ => by show (0 : Nat) < s.length; omega) hc
    subst hcgs
    unfold pglz_decompress_hacked
    have hdec := decompGo_groups s (encGroups gs) (encGroups gs).length gs
      (2 * (encGroups gs).length + 2) 0 0 0 hGood hGok (by simpa using hgslen)
      (by simp) (by intro j hj; simp) (by omega)
    rw [show List.take 0 s = ([] : List Nat) from rfl] at hdec
    rw [hdec]
    simp

  · rw [if_neg hg] at hc
    cases hc

set_option maxRecDepth 10000 in
/-- Concrete instance of the C1 round-trip: 40 identical bytes compress under
DEFAULT to a 9-byte stream, and the theorem recovers the decompression. -/
theorem c1_roundtrip_witness :
    pglz_compress (List.replicate 40 7) strategy_default_data
        = some [2, 7, 15, 1, 17, 7, 7, 7, 7] ∧
    pglz_decompress_hacked [2, 7, 15, 1, 17, 7, 7, 7, 7]
        ([2, 7, 15, 1, 17, 7, 7, 7, 7] : List Nat).length (List.replicate 40 7).length true
      = DR.ok (((List.replicate 40 7).length : Int), List.replicate 40 7) :=
  ⟨by decide, c1_roundtrip (List.replicate 40 7) [2, 7, 15, 1, 17, 7, 7, 7, 7]
    (by unfold IsBytes; decide) (by decide)⟩

end Pglz
